import Mathlib

/-!
Verification of the `pw_bluetooth_proxy` subsystem of Pigweed: ACL send-credit
accounting, the GATT-notify send path, the H4 buffer pool, and the L2CAP
channel manager.

The L2CAP channel manager operations (`RegisterChannel`, `DeregisterChannel`,
`GetAclH4Packet`, `DrainChannelQueues`, `Advance`) are embedded from the
source of `l2cap_channel_manager.cc`.  The ACL data channel credit manager and
the `sendGattNotify` client call are modelled from the specification (their
implementation files are not among the sources; their unit tests are), as
flagged on each such definition.
-/

namespace PwBtProxy

/-- Status values (pw::Status) returned by the operations embedded here. -/
inductive Status where
  | ok
  | unavailable
  | invalidArgument
deriving DecidableEq, Repr

/-! Section 1: ACL data channel credit manager (spec section 4.2).
State per transport: `credits_desired` (fixed at construction),
`credits_reserved` (set once per controller buffer-size report), `available`,
and `connection_credits : Map<ConnectionHandle, uint16>` of credits the proxy
currently has in flight per connection handle. -/

/-- Lookup of the in-flight credit count (`connection_credits[handle]`);
a handle with no entry has zero credits in flight. -/
def lookupConnCredits : List (Nat × Nat) → Nat → Nat
  | [], _ => 0
  | (h, k) :: rest, handle => if h = handle then k else lookupConnCredits rest handle

/-- Increment `connection_credits[handle]` by one, creating the entry on first
send on that handle. -/
def bumpConnCredits : List (Nat × Nat) → Nat → List (Nat × Nat)
  | [], handle => [(handle, 1)]
  | (h, k) :: rest, handle =>
      if h = handle then (h, k + 1) :: rest else (h, k) :: bumpConnCredits rest handle

/-- Decrement `connection_credits[handle]` by `m` (saturating at zero, as the
counts are unsigned). -/
def subConnCredits : List (Nat × Nat) → Nat → Nat → List (Nat × Nat)
  | [], _, _ => []
  | (h, k) :: rest, handle, m =>
      if h = handle then (h, k - m) :: rest else (h, k) :: subConnCredits rest handle m

/-- Modelled from the spec: per-transport state of the ACL data channel credit
manager (`AclDataChannel`, implementation file absent from the sources).
Spec section 4.2 names the fields `credits_desired`, `credits_reserved`,
the available count, and the per-connection in-flight map
`connection_credits`. -/
structure AclTransportCredits where
  creditsDesired : Nat
  initialized : Bool
  reservedTotal : Nat
  available : Nat
  connectionCredits : List (Nat × Nat)
deriving DecidableEq, Repr

/-- State of a transport at proxy construction: `credits_desired` is fixed by
the constructor argument; nothing is reserved until the controller reports its
buffer size. -/
def AclTransportCredits.init (desired : Nat) : AclTransportCredits :=
  ⟨desired, false, 0, 0, []⟩

/-- Modelled from the spec: `ReserveCredits(transport, controller_total)` — on
the first qualifying LE read-buffer-size command-complete event, reserve
`min(desired, controller_total)` and rewrite the total forwarded to the host
to `controller_total - reserved`; once the transport is initialized, later
events are ignored for credit purposes and forwarded unmodified.  Returns the
new state and the total the host sees. -/
def ReserveCredits (s : AclTransportCredits) (controllerTotal : Nat) :
    AclTransportCredits × Nat :=
  if s.initialized then (s, controllerTotal)
  else
    let reserved := min s.creditsDesired controllerTotal
    ({ s with
        initialized := true
        reservedTotal := reserved
        available := reserved },
      controllerTotal - reserved)

/-- Modelled from the spec: sending one ACL frame on a connection consumes one
available credit (`ReserveSendCredit` followed by `SendAcl`) and records it in
flight on the frame's connection handle; with no available credit the send is
refused and the state is unchanged. -/
def SendAcl (s : AclTransportCredits) (handle : Nat) : AclTransportCredits × Status :=
  if s.available = 0 then (s, .unavailable)
  else
    ({ s with
        available := s.available - 1
        connectionCredits := bumpConnCredits s.connectionCredits handle },
      .ok)

/-- Process one `(handle, reported)` entry of a Number_Of_Completed_Packets
event: reclaim `min(reported, connection_credits[handle])` back to `available`
and rewrite the entry to the remainder, which belongs to the host. -/
def reclaimOne (s : AclTransportCredits) (entry : Nat × Nat) :
    AclTransportCredits × (Nat × Nat) :=
  let used := lookupConnCredits s.connectionCredits entry.1
  let reclaimed := min used entry.2
  ({ s with
      available := s.available + reclaimed
      connectionCredits := subConnCredits s.connectionCredits entry.1 reclaimed },
    (entry.1, entry.2 - reclaimed))

/-- Modelled from the spec: `ReclaimCredits(event)` — handle every entry of a
Number_Of_Completed_Packets event in order, reclaiming the proxy's share and
rewriting the in-place event forwarded to the host. -/
def ReclaimCredits (s : AclTransportCredits) :
    List (Nat × Nat) → AclTransportCredits × List (Nat × Nat)
  | [] => (s, [])
  | e :: rest =>
      let se := reclaimOne s e
      let srest := ReclaimCredits se.1 rest
      (srest.1, se.2 :: srest.2)

/-- One credit-manager operation, as quantified over by spec property P2. -/
inductive CreditOp where
  | reserveCredits (controllerTotal : Nat)
  | sendAcl (handle : Nat)
  | reclaimCredits (event : List (Nat × Nat))
deriving Repr

/-- Effect of one operation on the per-transport credit state. -/
def applyCreditOp (s : AclTransportCredits) : CreditOp → AclTransportCredits
  | .reserveCredits t => (ReserveCredits s t).1
  | .sendAcl h => (SendAcl s h).1
  | .reclaimCredits ev => (ReclaimCredits s ev).1

/-- Run a sequence of credit-manager operations from a starting state. -/
def runCreditOps (s : AclTransportCredits) : List CreditOp → AclTransportCredits
  | [] => s
  | op :: rest => runCreditOps (applyCreditOp s op) rest

/-- Sum of the per-connection in-flight credit counts. -/
def sumConnCredits (m : List (Nat × Nat)) : Nat :=
  (m.map Prod.snd).sum

/-- Credit-conservation equation of spec property P2. -/
def conserved (s : AclTransportCredits) : Prop :=
  s.reservedTotal = s.available + sumConnCredits s.connectionCredits

/-- Strengthened inductive invariant: conservation, plus the fact that before
the transport is initialized no credit is available and nothing is in
flight. -/
def CreditInv (s : AclTransportCredits) : Prop :=
  conserved s ∧ (s.initialized = false → s.available = 0 ∧ s.connectionCredits = [])

theorem sumConnCredits_nil : sumConnCredits [] = 0 := rfl

theorem sumConnCredits_bump (m : List (Nat × Nat)) (handle : Nat) :
    sumConnCredits (bumpConnCredits m handle) = sumConnCredits m + 1 := by
  induction m with
  | nil => simp [bumpConnCredits, sumConnCredits]
  | cons e rest ih =>
      obtain ⟨h, k⟩ := e
      by_cases hh : h = handle
      · simp [bumpConnCredits, hh, sumConnCredits]
        all_goals omega
      · simp [bumpConnCredits, hh, sumConnCredits] at ih ⊢
        all_goals omega

theorem lookupConnCredits_le_sum (m : List (Nat × Nat)) (handle : Nat) :
    lookupConnCredits m handle ≤ sumConnCredits m := by
  induction m with
  | nil => simp [lookupConnCredits, sumConnCredits]
  | cons e rest ih =>
      obtain ⟨h, k⟩ := e
      by_cases hh : h = handle
      · simp [lookupConnCredits, hh, sumConnCredits]
      · simp [lookupConnCredits, hh, sumConnCredits] at ih ⊢
        all_goals omega

theorem sumConnCredits_sub (m : List (Nat × Nat)) (handle : Nat) :
    ∀ k, k ≤ lookupConnCredits m handle →
      sumConnCredits (subConnCredits m handle k) = sumConnCredits m - k := by
  induction m with
  | nil =>
      intro k hk
      simp [lookupConnCredits] at hk
      simp [hk, subConnCredits]
  | cons e rest ih =>
      obtain ⟨h, v⟩ := e
      intro k hk
      by_cases hh : h = handle
      · subst hh
        simp [lookupConnCredits] at hk
        simp [subConnCredits, sumConnCredits]
        all_goals omega
      · simp [lookupConnCredits, hh] at hk
        have hsum := ih k hk
        have hlk := lookupConnCredits_le_sum rest handle
        simp [subConnCredits, hh, sumConnCredits] at hsum hlk ⊢
        all_goals omega

theorem creditInv_init (d : Nat) : CreditInv (AclTransportCredits.init d) := by
  constructor
  · simp [conserved, AclTransportCredits.init, sumConnCredits]
  · intro _
    simp [AclTransportCredits.init]

theorem creditInv_reserve (s : AclTransportCredits) (t : Nat) (hs : CreditInv s) :
    CreditInv (ReserveCredits s t).1 := by
  obtain ⟨hc, hu⟩ := hs
  by_cases hi : s.initialized
  · simpa [ReserveCredits, hi] using ⟨hc, hu⟩
  · simp only [Bool.not_eq_true] at hi
    obtain ⟨ha, hm⟩ := hu hi
    constructor
    · simp [ReserveCredits, hi, conserved, hm, sumConnCredits]
    · intro hfalse
      simp [ReserveCredits, hi] at hfalse

theorem creditInv_sendAcl (s : AclTransportCredits) (handle : Nat) (hs : CreditInv s) :
    CreditInv (SendAcl s handle).1 := by
  obtain ⟨hc, hu⟩ := hs
  by_cases ha : s.available = 0
  · simpa [SendAcl, ha] using ⟨hc, hu⟩
  · constructor
    · simp only [conserved] at hc ⊢
      simp [SendAcl, ha, sumConnCredits_bump]
      omega
    · intro hfalse
      simp [SendAcl, ha] at hfalse
      obtain ⟨h0, _⟩ := hu hfalse
      exact absurd h0 ha

theorem creditInv_reclaimOne (s : AclTransportCredits) (e : Nat × Nat)
    (hs : CreditInv s) : CreditInv (reclaimOne s e).1 := by
  obtain ⟨hc, hu⟩ := hs
  constructor
  · simp only [conserved] at hc ⊢
    have hle : min (lookupConnCredits s.connectionCredits e.1) e.2 ≤
        lookupConnCredits s.connectionCredits e.1 := Nat.min_le_left _ _
    have hsum := lookupConnCredits_le_sum s.connectionCredits e.1
    simp [reclaimOne, sumConnCredits_sub s.connectionCredits e.1 _ hle]
    omega
  · intro hfalse
    simp only [reclaimOne] at hfalse ⊢
    obtain ⟨h0, hm⟩ := hu hfalse
    simp [h0, hm, lookupConnCredits, subConnCredits]

theorem creditInv_reclaim (ev : List (Nat × Nat)) :
    ∀ s : AclTransportCredits, CreditInv s → CreditInv (ReclaimCredits s ev).1 := by
  induction ev with
  | nil => intro s hs; simpa [ReclaimCredits] using hs
  | cons e rest ih =>
      intro s hs
      simpa [ReclaimCredits] using ih _ (creditInv_reclaimOne s e hs)

theorem creditInv_apply (s : AclTransportCredits) (op : CreditOp) (hs : CreditInv s) :
    CreditInv (applyCreditOp s op) := by
  cases op with
  | reserveCredits t => exact creditInv_reserve s t hs
  | sendAcl h => exact creditInv_sendAcl s h hs
  | reclaimCredits ev => exact creditInv_reclaim ev s hs

theorem creditInv_run (ops : List CreditOp) :
    ∀ s : AclTransportCredits, CreditInv s → CreditInv (runCreditOps s ops) := by
  induction ops with
  | nil => intro s hs; simpa [runCreditOps] using hs
  | cons op rest ih =>
      intro s hs
      exact ih _ (creditInv_apply s op hs)

/-- C1.  Credit conservation: starting from construction with any desired
reservation, after every sequence of `ReserveCredits`, `SendAcl` and
`ReclaimCredits` operations, the reserved credit total equals the available
(free) credits plus the sum over all connection handles of the per-connection
in-flight credit counts.  Since the sequence is arbitrary, this holds after
each operation of any longer sequence. -/
theorem credit_conservation (d : Nat) (ops : List CreditOp) :
    (runCreditOps (AclTransportCredits.init d) ops).reservedTotal =
      (runCreditOps (AclTransportCredits.init d) ops).available +
        sumConnCredits (runCreditOps (AclTransportCredits.init d) ops).connectionCredits :=
  (creditInv_run ops _ (creditInv_init d)).1

theorem lookupConnCredits_sub_ne (m : List (Nat × Nat)) (h h2 k : Nat) (hne : h2 ≠ h) :
    lookupConnCredits (subConnCredits m h k) h2 = lookupConnCredits m h2 := by
  induction m with
  | nil => simp [subConnCredits]
  | cons e rest ih =>
      obtain ⟨a, v⟩ := e
      by_cases ha : a = h
      · subst ha
        have hah2 : a ≠ h2 := fun hc => hne hc.symm
        simp [subConnCredits, lookupConnCredits, hah2]
      · simp [subConnCredits, ha, lookupConnCredits, ih]

theorem lookupConnCredits_sub_self (m : List (Nat × Nat)) (h k : Nat) :
    lookupConnCredits (subConnCredits m h k) h = lookupConnCredits m h - k := by
  induction m with
  | nil => simp [subConnCredits, lookupConnCredits]
  | cons e rest ih =>
      obtain ⟨a, v⟩ := e
      by_cases ha : a = h
      · subst ha
        simp [subConnCredits, lookupConnCredits]
      · simp [subConnCredits, ha, lookupConnCredits, ih]

/-- C2.  Reclaim precision: handling a Number_Of_Completed_Packets event whose
entries carry distinct connection handles (as HCI events do) reclaims, for
each entry `(h, r)` with `k` credits in flight on `h`, exactly `min k r`
credits into the available pool; forwards `r - min k r` for `h`; leaves every
entry of a handle with no in-flight credits unchanged; reduces each handle's
in-flight count by exactly its reclaimed amount; and leaves handles outside
the event untouched. -/
theorem reclaim_precision (ev : List (Nat × Nat)) :
    ∀ s : AclTransportCredits, (ev.map Prod.fst).Nodup →
      (ReclaimCredits s ev).2 =
        ev.map (fun e =>
          (e.1, e.2 - min (lookupConnCredits s.connectionCredits e.1) e.2)) ∧
      (ReclaimCredits s ev).1.available =
        s.available +
          (ev.map (fun e => min (lookupConnCredits s.connectionCredits e.1) e.2)).sum ∧
      (∀ e ∈ ev,
        lookupConnCredits (ReclaimCredits s ev).1.connectionCredits e.1 =
          lookupConnCredits s.connectionCredits e.1 -
            min (lookupConnCredits s.connectionCredits e.1) e.2) ∧
      (∀ h2, h2 ∉ ev.map Prod.fst →
        lookupConnCredits (ReclaimCredits s ev).1.connectionCredits h2 =
          lookupConnCredits s.connectionCredits h2) := by
  induction ev with
  | nil =>
      intro s _
      refine ⟨rfl, by simp [ReclaimCredits], ?_, ?_⟩
      · intro e he
        simp at he
      · intro h2 _
        rfl
  | cons e rest ih =>
      intro s hnd
      simp only [List.map_cons, List.nodup_cons] at hnd
      obtain ⟨hne, hndr⟩ := hnd
      obtain ⟨ih1, ih2, ih3, ih4⟩ := ih (reclaimOne s e).1 hndr
      have hconn : (reclaimOne s e).1.connectionCredits =
          subConnCredits s.connectionCredits e.1
            (min (lookupConnCredits s.connectionCredits e.1) e.2) := rfl
      have havail : (reclaimOne s e).1.available =
          s.available + min (lookupConnCredits s.connectionCredits e.1) e.2 := rfl
      have hstable : ∀ e2 ∈ rest,
          lookupConnCredits (reclaimOne s e).1.connectionCredits e2.1 =
            lookupConnCredits s.connectionCredits e2.1 := by
        intro e2 he2
        have hne2 : e2.1 ≠ e.1 := by
          intro hc
          exact hne (hc ▸ List.mem_map_of_mem Prod.fst he2)
        rw [hconn]
        exact lookupConnCredits_sub_ne _ _ _ _ hne2
      refine ⟨?_, ?_, ?_, ?_⟩
      · simp only [ReclaimCredits, List.map_cons]
        refine congrArg₂ List.cons rfl ?_
        rw [ih1]
        exact List.map_congr_left (fun e2 he2 => by rw [hstable e2 he2])
      · simp only [ReclaimCredits, List.map_cons, List.sum_cons]
        rw [ih2, havail]
        have : (rest.map (fun e2 =>
            min (lookupConnCredits (reclaimOne s e).1.connectionCredits e2.1) e2.2)).sum =
            (rest.map (fun e2 =>
              min (lookupConnCredits s.connectionCredits e2.1) e2.2)).sum := by
          refine congrArg List.sum ?_
          exact List.map_congr_left (fun e2 he2 => by rw [hstable e2 he2])
        rw [this]
        omega
      · intro e2 he2
        rcases List.mem_cons.mp he2 with heq | hmem
        · subst heq
          have hnein : e2.1 ∉ rest.map Prod.fst := by
            intro hc
            exact hne hc
          simp only [ReclaimCredits]
          rw [ih4 e2.1 hnein, hconn, lookupConnCredits_sub_self]
        · have := ih3 e2 hmem
          simp only [ReclaimCredits]
          rw [this, hstable e2 hmem]
      · intro h2 hnot
        simp only [List.map_cons, List.mem_cons] at hnot
        push_neg at hnot
        obtain ⟨hn1, hn2⟩ := hnot
        simp only [ReclaimCredits]
        rw [ih4 h2 hn2, hconn, lookupConnCredits_sub_ne _ _ _ _ hn1]

/-- C2 witness: the scenario of test `ProxyReclaimsOnlyItsUsedCredits` — two
credits in flight on handle 0x123, none on 0x456; the event reports 10 and 15;
the proxy reclaims 2, forwards 8 and 15, and zeroes its in-flight count. -/
theorem reclaim_precision_witness :
    ([((0x123 : Nat), (10 : Nat)), (0x456, 15)].map Prod.fst).Nodup ∧
      (ReclaimCredits ⟨4, true, 4, 0, [(0x123, 2), (0xABC, 1), (0xBCD, 1)]⟩
        [(0x123, 10), (0x456, 15)]).2 = [(0x123, 8), (0x456, 15)] := by
  have h := reclaim_precision [((0x123 : Nat), (10 : Nat)), (0x456, 15)]
    ⟨4, true, 4, 0, [(0x123, 2), (0xABC, 1), (0xBCD, 1)]⟩ (by decide)
  exact ⟨by decide, by rw [h.1]; decide⟩

/-- C3.  Credit cap: from construction with desired reservation `d`, the first
read-buffer-size report of a controller total `t` reserves exactly
`min d t` (both as the recorded reservation and as the available count) and
forwards `t - min d t` to the host; with `d = 0` nothing is available and the
host sees the full total. -/
theorem reserve_credit_cap (d t : Nat) :
    (ReserveCredits (AclTransportCredits.init d) t).1.reservedTotal = min d t ∧
    (ReserveCredits (AclTransportCredits.init d) t).1.available = min d t ∧
    (ReserveCredits (AclTransportCredits.init d) t).2 = t - min d t ∧
    (ReserveCredits (AclTransportCredits.init 0) t).1.available = 0 ∧
    (ReserveCredits (AclTransportCredits.init 0) t).2 = t := by
  simp [ReserveCredits, AclTransportCredits.init]

/-! Section 2: L2CAP channel manager registry, embedded from
`l2cap_channel_manager.cc`.  The registry is an intrusive forward list of
channels with two iterators into it, `lrd_channel_` (least-recently-drained
cursor) and `round_robin_terminus_`.  A channel is identified here by its
`cid` (standing for the channel object's identity, unique among registered
channels); an iterator is modelled as the identity of the node it points at,
with `none` playing the role of `channels_.end()`. -/

/-- Logical-link transport of a channel (`AclTransportType`). -/
inductive AclTransportType where
  | le
  | brEdr
deriving DecidableEq, Repr

/-- One registered L2CAP channel: its identity, its transport, and its
outbound queue of pending PDUs (PDUs are abstract tokens). -/
structure L2capChannel where
  cid : Nat
  transport : AclTransportType
  queue : List Nat
deriving DecidableEq, Repr

/-- Identities of the registered channels, in registry order. -/
def cidsOf (chs : List L2capChannel) : List Nat := chs.map L2capChannel.cid

/-- Registry state of `L2capChannelManager`: the channel list, the
least-recently-drained cursor and the round-robin terminus. -/
structure L2capChannelManager where
  channels : List L2capChannel
  lrd : Option Nat
  terminus : Option Nat
deriving DecidableEq, Repr

/-- Manager at construction: empty registry, both iterators at `end()`. -/
def L2capChannelManager.mkEmpty : L2capChannelManager := ⟨[], none, none⟩

/-- Identity of the element following the first occurrence of `c`, if any. -/
def nextAfterId : List Nat → Nat → Option Nat
  | [], _ => none
  | x :: xs, c => if x = c then xs.head? else nextAfterId xs c

/-- Step an iterator forward over the identity list, wrapping to `begin()`
past the end (kernel of `L2capChannelManager::Advance`). -/
def advanceId (l : List Nat) (c : Nat) : Option Nat :=
  match nextAfterId l c with
  | some d => some d
  | none => l.head?

/-- `L2capChannelManager::Advance`: `if (++it == channels_.end()) it =
channels_.begin();`.  The source never advances an `end()` iterator; that
case is given the wrap-to-begin value for totality. -/
def Advance (chs : List L2capChannel) (it : Option Nat) : Option Nat :=
  match it with
  | some c => advanceId (cidsOf chs) c
  | none => (cidsOf chs).head?

/-- Insert `ch` immediately before the first channel with identity `d`
(`insert_after(before_it, channel)` after walking `before_it` up to the
cursor); if `d` is never encountered the walk stops at the last node and the
channel is appended. -/
def insertBeforeId : List L2capChannel → Nat → L2capChannel → List L2capChannel
  | [], _, ch => [ch]
  | x :: xs, d, ch => if x.cid = d then ch :: x :: xs else x :: insertBeforeId xs d ch

/-- `L2capChannelManager::RegisterChannel`: insert the new channel immediately
before `lrd_channel_` (walking to the end, i.e. appending, when the cursor is
at `end()`), then home the cursor to `begin()` if it was at `end()`. -/
def RegisterChannel (m : L2capChannelManager) (ch : L2capChannel) : L2capChannelManager :=
  match m.lrd with
  | none =>
      let chs := m.channels ++ [ch]
      { m with channels := chs, lrd := (cidsOf chs).head? }
  | some d =>
      { m with channels := insertBeforeId m.channels d ch }

/-- Remove the node holding the given channel (`channels_.remove(channel)`);
a channel not in the list leaves it unchanged. -/
def removeByCid : List L2capChannel → Nat → List L2capChannel
  | [], _ => []
  | x :: xs, c => if x.cid = c then xs else x :: removeByCid xs c

/-- `L2capChannelManager::DeregisterChannel`: advance `lrd_channel_` and/or
`round_robin_terminus_` off the channel if they point at it (the comparison
is by node identity, so an `end()` iterator, which designates the list's
sentinel, matches no channel), remove the channel, and reset both iterators
to `end()` if the registry became empty. -/
def DeregisterChannel (m : L2capChannelManager) (c : Nat) : L2capChannelManager :=
  let lrd1 := if m.lrd = some c then Advance m.channels m.lrd else m.lrd
  let ter1 := if m.terminus = some c then Advance m.channels m.terminus else m.terminus
  let chs := removeByCid m.channels c
  if chs.isEmpty then ⟨chs, none, none⟩
  else ⟨chs, lrd1, ter1⟩

/-- Pointing condition of an iterator: when not at `end()`, it designates a
node of the list. -/
def IterOn : Option Nat → List Nat → Prop
  | none, _ => True
  | some c, l => c ∈ l

instance instDecIterOn : (it : Option Nat) → (l : List Nat) → Decidable (IterOn it l)
  | none, _ => isTrue trivial
  | some c, l => inferInstanceAs (Decidable (c ∈ l))

theorem IterOn.mem {it : Option Nat} {l : List Nat} {c : Nat}
    (h : IterOn it l) (hc : it = some c) : c ∈ l := by
  subst hc
  exact h

/-- Well-formedness of the registry: channel identities are distinct, the
cursor is at `end()` only when the registry is empty, and both iterators
point at registered channels when not at `end()`. -/
def MgrWF (m : L2capChannelManager) : Prop :=
  (cidsOf m.channels).Nodup ∧
  (m.lrd = none → m.channels = []) ∧
  IterOn m.lrd (cidsOf m.channels) ∧
  IterOn m.terminus (cidsOf m.channels)

instance (m : L2capChannelManager) : Decidable (MgrWF m) := by
  unfold MgrWF
  infer_instance

theorem nextAfterId_get (l : List Nat) :
    l.Nodup → ∀ i (hi : i < l.length), nextAfterId l (l.get ⟨i, hi⟩) = l[i + 1]? := by
  induction l with
  | nil =>
      intro _ i hi
      simp at hi
  | cons x xs ih =>
      intro hnd i hi
      cases i with
      | zero =>
          simp [nextAfterId, List.head?_eq_getElem?]
      | succ j =>
          have hnd' : xs.Nodup := (List.nodup_cons.mp hnd).2
          have hx : x ∉ xs := (List.nodup_cons.mp hnd).1
          have hj : j < xs.length := by simpa using hi
          have hne : x ≠ xs.get ⟨j, hj⟩ := by
            intro hc
            exact hx (hc ▸ (xs.get_mem j hj))
          simp only [List.get_cons_succ, nextAfterId, if_neg hne]
          rw [ih hnd' j hj]
          simp

theorem advanceId_get (l : List Nat) (hnd : l.Nodup) (i : Nat) (hi : i < l.length) :
    advanceId l (l.get ⟨i, hi⟩) =
      some (l.get ⟨(i + 1) % l.length, Nat.mod_lt _ (by omega)⟩) := by
  unfold advanceId
  rw [nextAfterId_get l hnd i hi]
  by_cases hlast : i + 1 < l.length
  · have : (i + 1) % l.length = i + 1 := Nat.mod_eq_of_lt hlast
    rw [List.getElem?_eq_getElem hlast]
    simp only [this, List.get_eq_getElem]
  · have hlen : i + 1 = l.length := by omega
    have h0 : (i + 1) % l.length = 0 := by rw [hlen, Nat.mod_self]
    rw [List.getElem?_eq_none (by omega), List.head?_eq_getElem?,
      List.getElem?_eq_getElem (by omega)]
    simp only [h0, List.get_eq_getElem]

theorem cidsOf_removeByCid (chs : List L2capChannel) (c : Nat) :
    cidsOf (removeByCid chs c) = (cidsOf chs).erase c := by
  induction chs with
  | nil => simp [removeByCid, cidsOf]
  | cons x xs ih =>
      by_cases hx : x.cid = c
      · simp [removeByCid, hx, cidsOf, List.erase_cons]
      · simp [removeByCid, hx, cidsOf, List.erase_cons] at ih ⊢
        exact ih

theorem removeByCid_of_not_mem (chs : List L2capChannel) (c : Nat)
    (hc : c ∉ cidsOf chs) : removeByCid chs c = chs := by
  induction chs with
  | nil => rfl
  | cons x xs ih =>
      rw [show cidsOf (x :: xs) = x.cid :: cidsOf xs from rfl, List.mem_cons] at hc
      push_neg at hc
      obtain ⟨h1, h2⟩ := hc
      have hxc : ¬ x.cid = c := fun hcc => h1 hcc.symm
      simp only [removeByCid, if_neg hxc, ih h2]

theorem advance_removed_mem (chs : List L2capChannel) (c : Nat)
    (hnd : (cidsOf chs).Nodup) (hc : c ∈ cidsOf chs)
    (hne : removeByCid chs c ≠ []) :
    ∃ e, Advance chs (some c) = some e ∧ e ≠ c ∧
      e ∈ cidsOf (removeByCid chs c) := by
  set l := cidsOf chs with hl
  have hi : l.indexOf c < l.length := List.indexOf_lt_length.mpr hc
  have hgi : l.get ⟨l.indexOf c, hi⟩ = c := List.indexOf_get hi
  have hn2 : 2 ≤ l.length := by
    rcases Nat.lt_or_ge l.length 2 with h | h
    · exfalso
      have h1 : l.length = 1 := by
        rcases Nat.eq_zero_or_pos l.length with h0 | h0
        · rw [List.length_eq_zero] at h0
          rw [h0] at hc
          exact absurd hc (List.not_mem_nil c)
        · omega
      have hlen : (l.erase c).length = 0 := by
        rw [List.length_erase_of_mem hc, h1]
      rw [← cidsOf_removeByCid] at hlen
      exact hne (List.length_eq_zero.mp (by simpa [cidsOf] using hlen))
    · exact h
  have hadv : Advance chs (some c) =
      some (l.get ⟨(l.indexOf c + 1) % l.length, Nat.mod_lt _ (by omega)⟩) := by
    have hadv0 := advanceId_get l hnd (l.indexOf c) hi
    rw [hgi] at hadv0
    exact hadv0
  set j := (l.indexOf c + 1) % l.length with hj
  have hjlt : j < l.length := Nat.mod_lt _ (by omega)
  have hji : j ≠ l.indexOf c := by
    rcases Nat.lt_or_ge (l.indexOf c + 1) l.length with hlt | hge
    · rw [hj, Nat.mod_eq_of_lt hlt]; omega
    · have : l.indexOf c + 1 = l.length := by omega
      rw [hj, this, Nat.mod_self]
      omega
  have hgetne : l.get ⟨j, hjlt⟩ ≠ c := by
    intro hcontra
    have heq : l.get ⟨j, hjlt⟩ = l.get ⟨l.indexOf c, hi⟩ := by rw [hgi, hcontra]
    have := (List.Nodup.get_inj_iff hnd).mp heq
    exact hji (by simpa using this)
  refine ⟨l.get ⟨j, hjlt⟩, hadv, hgetne, ?_⟩
  rw [cidsOf_removeByCid, ← hl]
  exact (List.Nodup.mem_erase_iff hnd).mpr ⟨hgetne, l.get_mem j hjlt⟩

theorem insertBeforeId_spec (chs : List L2capChannel) (d : Nat) (ch : L2capChannel)
    (hd : d ∈ cidsOf chs) :
    ∃ l1 chD l2, chs = l1 ++ chD :: l2 ∧ chD.cid = d ∧
      insertBeforeId chs d ch = l1 ++ ch :: chD :: l2 := by
  induction chs with
  | nil => exact absurd hd (by simp [cidsOf])
  | cons x xs ih =>
      by_cases hx : x.cid = d
      · exact ⟨[], x, xs, rfl, hx, by simp [insertBeforeId, hx]⟩
      · have hd' : d ∈ cidsOf xs := by
          simp only [cidsOf, List.map_cons, List.mem_cons] at hd
          rcases hd with h | h
          · exact absurd h.symm hx
          · exact h
        obtain ⟨l1, chD, l2, heq, hcid, hins⟩ := ih hd'
        exact ⟨x :: l1, chD, l2, by rw [heq]; rfl, hcid,
          by simp [insertBeforeId, hx, hins]⟩

/-- C6.  Cursor maintenance: (a) when the cursor stands on channel `d`,
registration splits the registry at the first occurrence of `d` and places
the new channel immediately before it, leaving the cursor unchanged; (b) when
the deregistered channel is the cursor and/or terminus target and other
channels remain, that iterator is advanced and ends up on a channel that is
distinct from the removed one and still registered, while an iterator not
pointing at the removed channel is untouched; (c) a deregistration that
empties the registry leaves both iterators at `end()`. -/
theorem cursor_maintenance (m : L2capChannelManager) (ch : L2capChannel) (c : Nat)
    (hwf : MgrWF m) :
    (∀ d, m.lrd = some d →
      ∃ l1 chD l2, m.channels = l1 ++ chD :: l2 ∧ chD.cid = d ∧
        (RegisterChannel m ch).channels = l1 ++ ch :: chD :: l2 ∧
        (RegisterChannel m ch).lrd = m.lrd ∧
        (RegisterChannel m ch).terminus = m.terminus) ∧
    (removeByCid m.channels c ≠ [] →
      (m.lrd = some c →
        ∃ e, (DeregisterChannel m c).lrd = some e ∧ e ≠ c ∧
          e ∈ cidsOf (DeregisterChannel m c).channels) ∧
      (m.lrd ≠ some c → (DeregisterChannel m c).lrd = m.lrd) ∧
      (m.terminus = some c →
        ∃ e, (DeregisterChannel m c).terminus = some e ∧ e ≠ c ∧
          e ∈ cidsOf (DeregisterChannel m c).channels) ∧
      (m.terminus ≠ some c → (DeregisterChannel m c).terminus = m.terminus)) ∧
    ((DeregisterChannel m c).channels = [] →
      (DeregisterChannel m c).lrd = none ∧ (DeregisterChannel m c).terminus = none) := by
  obtain ⟨hnd, hnone, hlrd, hter⟩ := hwf
  refine ⟨?_, ?_, ?_⟩
  · intro d hd
    have hdm : d ∈ cidsOf m.channels := hlrd.mem hd
    obtain ⟨l1, chD, l2, heq, hcid, hins⟩ := insertBeforeId_spec m.channels d ch hdm
    refine ⟨l1, chD, l2, heq, hcid, ?_, ?_, ?_⟩
    · simp [RegisterChannel, hd, hins]
    · simp [RegisterChannel, hd]
    · simp [RegisterChannel, hd]
  · intro hne
    have hres : DeregisterChannel m c =
        ⟨removeByCid m.channels c,
          if m.lrd = some c then Advance m.channels m.lrd else m.lrd,
          if m.terminus = some c then Advance m.channels m.terminus else m.terminus⟩ := by
      simp only [DeregisterChannel]
      rw [if_neg (by simpa [List.isEmpty_iff] using hne)]
    refine ⟨?_, ?_, ?_, ?_⟩
    · intro hd
      have hcm : c ∈ cidsOf m.channels := hlrd.mem hd
      obtain ⟨e, hadv, hec, hem⟩ := advance_removed_mem m.channels c hnd hcm hne
      exact ⟨e, by rw [hres]; simpa [hd] using hadv, hec, by rw [hres]; exact hem⟩
    · intro hd
      rw [hres]
      simp [hd]
    · intro hd
      have hcm : c ∈ cidsOf m.channels := hter.mem hd
      obtain ⟨e, hadv, hec, hem⟩ := advance_removed_mem m.channels c hnd hcm hne
      exact ⟨e, by rw [hres]; simpa [hd] using hadv, hec, by rw [hres]; exact hem⟩
    · intro hd
      rw [hres]
      simp [hd]
  · intro hempty
    unfold DeregisterChannel at hempty ⊢
    by_cases hch : (removeByCid m.channels c).isEmpty
    · simp [hch]
    · rw [if_neg hch] at hempty
      simp only at hempty
      rw [List.isEmpty_iff] at hch
      exact absurd hempty hch

/-- C6 witness: a two-channel registry with both iterators on the second
channel; deregistering that channel re-homes the cursor to a distinct, still
registered channel. -/
theorem cursor_maintenance_witness :
    MgrWF ⟨[⟨1, .le, []⟩, ⟨2, .le, []⟩], some 2, some 2⟩ ∧
      ∃ e, (DeregisterChannel ⟨[⟨1, .le, []⟩, ⟨2, .le, []⟩], some 2, some 2⟩ 2).lrd =
          some e ∧ e ≠ 2 ∧
        e ∈ cidsOf (DeregisterChannel
          ⟨[⟨1, .le, []⟩, ⟨2, .le, []⟩], some 2, some 2⟩ 2).channels := by
  refine ⟨by decide, ?_⟩
  have h := cursor_maintenance ⟨[⟨1, .le, []⟩, ⟨2, .le, []⟩], some 2, some 2⟩
    ⟨3, .le, []⟩ 2 (by decide)
  exact (h.2.1 (by decide)).1 rfl

/-- C10.  Deregistration is idempotent on a well-formed registry: the second
call finds that neither iterator points at the (already removed) channel —
an `end()` iterator designates the sentinel and matches no channel — removes
nothing, and re-runs the empty-reset unchanged, so the state equals that
after the first call; in particular deregistering the sole channel twice is
well defined. -/
theorem deregister_idempotent (m : L2capChannelManager) (c : Nat) (hwf : MgrWF m) :
    DeregisterChannel (DeregisterChannel m c) c = DeregisterChannel m c := by
  obtain ⟨hnd, hnone, hlrd, hter⟩ := hwf
  by_cases hemp : removeByCid m.channels c = []
  · have h1 : DeregisterChannel m c = ⟨[], none, none⟩ := by
      simp only [DeregisterChannel]
      rw [hemp]
      simp
    rw [h1]
    simp [DeregisterChannel, removeByCid]
  · have hres : DeregisterChannel m c =
        ⟨removeByCid m.channels c,
          if m.lrd = some c then Advance m.channels m.lrd else m.lrd,
          if m.terminus = some c then Advance m.channels m.terminus else m.terminus⟩ := by
      simp only [DeregisterChannel]
      rw [if_neg (by simpa [List.isEmpty_iff] using hemp)]
    have hcnot : c ∉ cidsOf (removeByCid m.channels c) := by
      rw [cidsOf_removeByCid]
      exact hnd.not_mem_erase
    have hlrdne : (if m.lrd = some c then Advance m.channels m.lrd else m.lrd) ≠
        some c := by
      by_cases hd : m.lrd = some c
      · rw [if_pos hd, hd]
        obtain ⟨e, hadv, hec, _⟩ := advance_removed_mem m.channels c hnd
          (hlrd.mem hd) hemp
        rw [hadv]
        simpa using hec
      · rw [if_neg hd]
        exact hd
    have hterne : (if m.terminus = some c then Advance m.channels m.terminus
        else m.terminus) ≠ some c := by
      by_cases hd : m.terminus = some c
      · rw [if_pos hd, hd]
        obtain ⟨e, hadv, hec, _⟩ := advance_removed_mem m.channels c hnd
          (hter.mem hd) hemp
        rw [hadv]
        simpa using hec
      · rw [if_neg hd]
        exact hd
    rw [hres]
    simp only [DeregisterChannel]
    rw [if_neg hlrdne, if_neg hterne, removeByCid_of_not_mem _ _ hcnot,
      if_neg (by simpa [List.isEmpty_iff] using hemp)]

/-- C10 witness: deregistering the sole registered channel twice equals
deregistering it once. -/
theorem deregister_idempotent_witness :
    MgrWF ⟨[⟨1, .le, []⟩], some 1, some 1⟩ ∧
      DeregisterChannel (DeregisterChannel ⟨[⟨1, .le, []⟩], some 1, some 1⟩ 1) 1 =
        DeregisterChannel ⟨[⟨1, .le, []⟩], some 1, some 1⟩ 1 :=
  ⟨by decide, deregister_idempotent ⟨[⟨1, .le, []⟩], some 1, some 1⟩ 1 (by decide)⟩

/-! Section 3: `L2capChannelManager::DrainChannelQueues`, embedded from the
source.  Each loop iteration: return if the registry is empty; set the
terminus to the cursor if the terminus is at `end()`; reserve one send credit
for the cursor channel's transport and, when granted, dequeue one PDU from
its queue; advance the cursor; on a dequeue set the terminus to the new
cursor and perform the send (outside the lock); otherwise stop once the
cursor equals the terminus. -/

/-- Drain-relevant state: the registry plus the per-transport available send
credits of the ACL data channel and the trace of PDUs handed to `SendAcl`
(channel identity and PDU, in send order).  `ReserveSendCredit` grants a
credit exactly when the transport has one available; a granted credit that is
not consumed by a send is returned when dropped (per the spec, a credit is
consumed only when a frame is dispatched and never otherwise destroyed), so
the available count decreases exactly on a send. -/
structure DrainState where
  mgr : L2capChannelManager
  leCredits : Nat
  brEdrCredits : Nat
  sent : List (Nat × Nat)
deriving DecidableEq, Repr

/-- Available send credits of a transport. -/
def creditsFor (st : DrainState) : AclTransportType → Nat
  | .le => st.leCredits
  | .brEdr => st.brEdrCredits

/-- Replace the available send credits of a transport. -/
def setCredits (st : DrainState) (t : AclTransportType) (n : Nat) : DrainState :=
  match t with
  | .le => { st with leCredits := n }
  | .brEdr => { st with brEdrCredits := n }

/-- First channel with the given identity. -/
def findByCid : List L2capChannel → Nat → Option L2capChannel
  | [], _ => none
  | ch :: rest, c => if ch.cid = c then some ch else findByCid rest c

/-- Outbound queue of the identified channel (empty for an absent one). -/
def queueOfCid (chs : List L2capChannel) (c : Nat) : List Nat :=
  match findByCid chs c with
  | some ch => ch.queue
  | none => []

/-- Drop the front PDU of the identified channel's queue
(`L2capChannel::DequeuePacket` pops one PDU off the outbound queue). -/
def popQueue : List L2capChannel → Nat → List L2capChannel
  | [], _ => []
  | ch :: rest, c =>
      if ch.cid = c then { ch with queue := ch.queue.tail } :: rest
      else ch :: popQueue rest c

/-- Outcome of one pass through the loop body: stop, or go round again. -/
inductive StepOut where
  | done (st : DrainState)
  | next (st : DrainState)
deriving DecidableEq, Repr

/-- Terminus value after the `round_robin_terminus_ == channels_.end()` check:
an `end()` terminus is re-seated on the cursor. -/
def ter0Of (terminus : Option Nat) (lrdCid : Nat) : Option Nat :=
  match terminus with
  | none => some lrdCid
  | some t => some t

/-- One iteration of the `DrainChannelQueues` loop.  The `findByCid` miss is
unreachable: the cursor always points at a registered channel. -/
def drainStep (st : DrainState) : StepOut :=
  match st.mgr.lrd with
  | none => .done st
  | some lrdCid =>
    let ter0 := ter0Of st.mgr.terminus lrdCid
    match findByCid st.mgr.channels lrdCid with
    | none => .done st
    | some ch =>
      match (if 0 < creditsFor st ch.transport then ch.queue.head? else none) with
      | some pdu =>
          let chs1 := popQueue st.mgr.channels lrdCid
          let newLrd := Advance st.mgr.channels (some lrdCid)
          let st1 := setCredits st ch.transport (creditsFor st ch.transport - 1)
          .next { st1 with
                    mgr := ⟨chs1, newLrd, newLrd⟩
                    sent := st.sent ++ [(lrdCid, pdu)] }
      | none =>
          let newLrd := Advance st.mgr.channels (some lrdCid)
          let st1 := { st with mgr := ⟨st.mgr.channels, newLrd, ter0⟩ }
          if newLrd = ter0 then .done st1 else .next st1

/-- The loop, with explicit fuel; `none` means the fuel ran out before the
loop stopped. -/
def drainFuel : Nat → DrainState → Option DrainState
  | 0, _ => none
  | fuel + 1, st =>
      match drainStep st with
      | .done st1 => some st1
      | .next st1 => drainFuel fuel st1

/-- Total number of queued PDUs across the registry. -/
def totalQueued (chs : List L2capChannel) : Nat :=
  (chs.map (fun ch => ch.queue.length)).sum

/-- Number of queued PDUs on channels of one transport. -/
def queuedOn (chs : List L2capChannel) (t : AclTransportType) : Nat :=
  (chs.map (fun ch => if ch.transport = t then ch.queue.length else 0)).sum

/-- Index reached by one forward step from index `i` in a cyclic list of
length `n`. -/
def nextIdx (n i : Nat) : Nat := if i + 1 = n then 0 else i + 1

/-- Number of forward steps needed to travel from index `i` to index `j` in a
cyclic list of length `n`. -/
def cyclicDist (n i j : Nat) : Nat := if i ≤ j then j - i else j + n - i

/-- Steps the cursor may take before it meets the terminus again: a full lap
when the terminus is at `end()` or equal to the cursor, the cyclic distance
otherwise. -/
def distRemaining (st : DrainState) : Nat :=
  match st.mgr.lrd, st.mgr.terminus with
  | none, _ => 0
  | some _, none => st.mgr.channels.length
  | some c, some t =>
      let l := cidsOf st.mgr.channels
      let d := cyclicDist l.length (l.indexOf c) (l.indexOf t)
      if d = 0 then l.length else d

/-- Bound on the number of loop iterations still possible: every iteration
either dequeues a PDU (paying `n + 1`) or moves the cursor one step closer to
the terminus. -/
def drainMeasure (st : DrainState) : Nat :=
  totalQueued st.mgr.channels * (st.mgr.channels.length + 1) + distRemaining st

theorem nextAfterId_mem (l : List Nat) (c d : Nat) (h : nextAfterId l c = some d) :
    d ∈ l := by
  induction l with
  | nil => simp [nextAfterId] at h
  | cons x xs ih =>
      by_cases hx : x = c
      · simp only [nextAfterId, if_pos hx] at h
        exact List.mem_cons_of_mem x (List.mem_of_mem_head? h)
      · simp only [nextAfterId, if_neg hx] at h
        exact List.mem_cons_of_mem x (ih h)

theorem advanceId_mem (l : List Nat) (c : Nat) (hc : c ∈ l) :
    ∃ e, advanceId l c = some e ∧ e ∈ l := by
  cases hn : nextAfterId l c with
  | some d =>
      refine ⟨d, ?_, nextAfterId_mem l c d hn⟩
      unfold advanceId
      rw [hn]
  | none =>
      have hne : l ≠ [] := List.ne_nil_of_mem hc
      obtain ⟨x, xs, rfl⟩ := List.exists_cons_of_ne_nil hne
      refine ⟨x, ?_, List.mem_cons_self x xs⟩
      unfold advanceId
      rw [hn]
      rfl

theorem findByCid_eq_some (chs : List L2capChannel) (c : Nat) (ch : L2capChannel)
    (h : findByCid chs c = some ch) : ch ∈ chs ∧ ch.cid = c := by
  induction chs with
  | nil => simp [findByCid] at h
  | cons x xs ih =>
      by_cases hx : x.cid = c
      · simp only [findByCid, if_pos hx] at h
        cases h
        exact ⟨List.mem_cons_self _ _, hx⟩
      · simp only [findByCid, if_neg hx] at h
        obtain ⟨hm, hc⟩ := ih h
        exact ⟨List.mem_cons_of_mem x hm, hc⟩

theorem findByCid_isSome_of_mem (chs : List L2capChannel) (c : Nat)
    (hc : c ∈ cidsOf chs) : ∃ ch, findByCid chs c = some ch := by
  induction chs with
  | nil => exact absurd hc (by simp [cidsOf])
  | cons x xs ih =>
      by_cases hx : x.cid = c
      · exact ⟨x, by simp [findByCid, hx]⟩
      · have hc' : c ∈ cidsOf xs := by
          rw [show cidsOf (x :: xs) = x.cid :: cidsOf xs from rfl,
            List.mem_cons] at hc
          rcases hc with h | h
          · exact absurd h.symm hx
          · exact h
        obtain ⟨ch, hch⟩ := ih hc'
        exact ⟨ch, by simp [findByCid, hx, hch]⟩

theorem findByCid_of_mem_nodup (chs : List L2capChannel) (ch : L2capChannel)
    (hnd : (cidsOf chs).Nodup) (hch : ch ∈ chs) :
    findByCid chs ch.cid = some ch := by
  induction chs with
  | nil => exact absurd hch (List.not_mem_nil ch)
  | cons x xs ih =>
      rcases List.mem_cons.mp hch with heq | hmem
      · subst heq
        simp [findByCid]
      · have hnd' : (cidsOf xs).Nodup ∧ x.cid ∉ cidsOf xs := by
          rw [show cidsOf (x :: xs) = x.cid :: cidsOf xs from rfl,
            List.nodup_cons] at hnd
          exact ⟨hnd.2, hnd.1⟩
        have hx : x.cid ≠ ch.cid := by
          intro hc
          exact hnd'.2 (hc ▸ List.mem_map_of_mem L2capChannel.cid hmem)
        simp only [findByCid, if_neg hx]
        exact ih hnd'.1 hmem

theorem cidsOf_popQueue (chs : List L2capChannel) (c : Nat) :
    cidsOf (popQueue chs c) = cidsOf chs := by
  induction chs with
  | nil => rfl
  | cons x xs ih =>
      by_cases hx : x.cid = c
      · simp [popQueue, hx, cidsOf]
      · simp only [popQueue, if_neg hx]
        rw [show cidsOf (x :: popQueue xs c) = x.cid :: cidsOf (popQueue xs c) from rfl,
          show cidsOf (x :: xs) = x.cid :: cidsOf xs from rfl, ih]

theorem length_popQueue (chs : List L2capChannel) (c : Nat) :
    (popQueue chs c).length = chs.length := by
  have h := cidsOf_popQueue chs c
  have h1 : (cidsOf (popQueue chs c)).length = (cidsOf chs).length := by rw [h]
  simpa [cidsOf] using h1

theorem findByCid_popQueue_self (chs : List L2capChannel) (c : Nat) :
    findByCid (popQueue chs c) c =
      (findByCid chs c).map (fun ch => { ch with queue := ch.queue.tail }) := by
  induction chs with
  | nil => rfl
  | cons x xs ih =>
      by_cases hx : x.cid = c
      · simp [popQueue, findByCid, hx]
      · simp [popQueue, findByCid, hx, ih]

theorem findByCid_popQueue_ne (chs : List L2capChannel) (c e : Nat) (h : e ≠ c) :
    findByCid (popQueue chs c) e = findByCid chs e := by
  induction chs with
  | nil => rfl
  | cons x xs ih =>
      by_cases hx : x.cid = c
      · have hxe : ¬ x.cid = e := fun hce => h (hce ▸ hx)
        simp only [popQueue, if_pos hx, findByCid]
        rw [if_neg hxe, if_neg hxe]
      · by_cases hxe : x.cid = e
        · simp only [popQueue, if_neg hx, findByCid, if_pos hxe]
        · simp only [popQueue, if_neg hx, findByCid, if_neg hxe]
          exact ih

theorem totalQueued_popQueue (chs : List L2capChannel) (c : Nat) (ch : L2capChannel)
    (hf : findByCid chs c = some ch) (hq : ch.queue ≠ []) :
    totalQueued (popQueue chs c) + 1 = totalQueued chs := by
  induction chs with
  | nil => simp [findByCid] at hf
  | cons x xs ih =>
      by_cases hx : x.cid = c
      · simp only [findByCid, if_pos hx] at hf
        cases hf
        simp only [popQueue, if_pos hx, totalQueued, List.map_cons, List.sum_cons]
        have : ch.queue.tail.length + 1 = ch.queue.length := by
          cases hc : ch.queue with
          | nil => exact absurd hc hq
          | cons a as => simp [hc]
        omega
      · simp only [findByCid, if_neg hx] at hf
        simp only [popQueue, if_neg hx, totalQueued, List.map_cons, List.sum_cons]
        have := ih hf
        simp only [totalQueued] at this
        omega

theorem queuedOn_popQueue_self (chs : List L2capChannel) (c : Nat) (ch : L2capChannel)
    (hf : findByCid chs c = some ch) (hq : ch.queue ≠ []) :
    queuedOn (popQueue chs c) ch.transport + 1 = queuedOn chs ch.transport := by
  induction chs with
  | nil => simp [findByCid] at hf
  | cons x xs ih =>
      by_cases hx : x.cid = c
      · simp only [findByCid, if_pos hx] at hf
        cases hf
        simp only [popQueue, if_pos hx, queuedOn, List.map_cons, List.sum_cons]
        have : ch.queue.tail.length + 1 = ch.queue.length := by
          cases hc : ch.queue with
          | nil => exact absurd hc hq
          | cons a as => simp [hc]
        try simp
        all_goals omega
      · simp only [findByCid, if_neg hx] at hf
        simp only [popQueue, if_neg hx, queuedOn, List.map_cons, List.sum_cons]
        have := ih hf
        simp only [queuedOn] at this
        omega

theorem queuedOn_popQueue_other (chs : List L2capChannel) (c : Nat) (ch : L2capChannel)
    (hf : findByCid chs c = some ch) (t : AclTransportType) (ht : t ≠ ch.transport) :
    queuedOn (popQueue chs c) t = queuedOn chs t := by
  induction chs with
  | nil => rfl
  | cons x xs ih =>
      by_cases hx : x.cid = c
      · simp only [findByCid, if_pos hx] at hf
        cases hf
        simp only [popQueue, if_pos hx, queuedOn, List.map_cons, List.sum_cons]
        rw [if_neg (fun hc => ht hc.symm), if_neg (fun hc => ht hc.symm)]
      · simp only [findByCid, if_neg hx] at hf
        simp only [popQueue, if_neg hx, queuedOn, List.map_cons, List.sum_cons]
        have := ih hf
        simp only [queuedOn] at this
        omega

theorem queue_length_le_queuedOn (chs : List L2capChannel) (ch : L2capChannel)
    (hch : ch ∈ chs) : ch.queue.length ≤ queuedOn chs ch.transport := by
  induction chs with
  | nil => exact absurd hch (List.not_mem_nil ch)
  | cons x xs ih =>
      simp only [queuedOn, List.map_cons, List.sum_cons]
      rcases List.mem_cons.mp hch with heq | hmem
      · subst heq
        try simp
        all_goals omega
      · have := ih hmem
        simp only [queuedOn] at this
        by_cases hx : x.transport = ch.transport
        · rw [if_pos hx]
          omega
        · rw [if_neg hx]
          omega

theorem creditsFor_setCredits_self (st : DrainState) (t : AclTransportType) (n : Nat) :
    creditsFor (setCredits st t n) t = n := by
  cases t <;> rfl

theorem creditsFor_setCredits_other (st : DrainState) (t t2 : AclTransportType)
    (n : Nat) (h : t2 ≠ t) : creditsFor (setCredits st t n) t2 = creditsFor st t2 := by
  cases t <;> cases t2 <;> first | rfl | exact absurd rfl h

theorem setCredits_mgr (st : DrainState) (t : AclTransportType) (n : Nat) :
    (setCredits st t n).mgr = st.mgr := by
  cases t <;> rfl

theorem setCredits_sent (st : DrainState) (t : AclTransportType) (n : Nat) :
    (setCredits st t n).sent = st.sent := by
  cases t <;> rfl

theorem Advance_some (chs : List L2capChannel) (c : Nat) :
    Advance chs (some c) = advanceId (cidsOf chs) c := rfl

theorem mod_nextIdx (n i : Nat) (hi : i < n) : (i + 1) % n = nextIdx n i := by
  unfold nextIdx
  by_cases h : i + 1 = n
  · rw [if_pos h, h, Nat.mod_self]
  · rw [if_neg h, Nat.mod_eq_of_lt (by omega)]

theorem nodup_indexOf_get (l : List Nat) (hnd : l.Nodup) (j : Nat) (hj : j < l.length) :
    l.indexOf (l.get ⟨j, hj⟩) = j := by
  have hm : l.get ⟨j, hj⟩ ∈ l := l.get_mem j hj
  have hi : l.indexOf (l.get ⟨j, hj⟩) < l.length := List.indexOf_lt_length.mpr hm
  have hg : l.get ⟨l.indexOf (l.get ⟨j, hj⟩), hi⟩ = l.get ⟨j, hj⟩ := List.indexOf_get hi
  have := (List.Nodup.get_inj_iff hnd).mp hg
  simpa using this

theorem advance_indexOf (chs : List L2capChannel) (c e : Nat)
    (hnd : (cidsOf chs).Nodup) (hc : c ∈ cidsOf chs)
    (hadv : Advance chs (some c) = some e) :
    (cidsOf chs).indexOf e =
      nextIdx (cidsOf chs).length ((cidsOf chs).indexOf c) := by
  set l := cidsOf chs with hl
  have hi : l.indexOf c < l.length := List.indexOf_lt_length.mpr hc
  have hgi : l.get ⟨l.indexOf c, hi⟩ = c := List.indexOf_get hi
  have hadv0 := advanceId_get l hnd (l.indexOf c) hi
  rw [hgi] at hadv0
  rw [Advance_some, ← hl, hadv0] at hadv
  have he : e = l.get ⟨(l.indexOf c + 1) % l.length, Nat.mod_lt _ (by omega)⟩ :=
    (Option.some.inj hadv).symm
  rw [he, nodup_indexOf_get l hnd _ _]
  exact mod_nextIdx l.length (l.indexOf c) hi

theorem cyclicDist_step_lt (n i j : Nat) (hi : i < n) (hj : j < n)
    (hne : nextIdx n i ≠ j) :
    (if cyclicDist n (nextIdx n i) j = 0 then n else cyclicDist n (nextIdx n i) j) <
      (if cyclicDist n i j = 0 then n else cyclicDist n i j) := by
  simp only [cyclicDist, nextIdx] at hne ⊢
  split_ifs at hne ⊢ <;> omega

theorem length_cidsOf (chs : List L2capChannel) : (cidsOf chs).length = chs.length := by
  simp [cidsOf]

theorem indexOf_ne_of_ne (l : List Nat) (a b : Nat) (ha : a ∈ l) (hb : b ∈ l)
    (hne : a ≠ b) : l.indexOf a ≠ l.indexOf b := by
  intro hc
  have hia : l.indexOf a < l.length := List.indexOf_lt_length.mpr ha
  have hib : l.indexOf b < l.length := List.indexOf_lt_length.mpr hb
  have hga : l.get ⟨l.indexOf a, hia⟩ = a := List.indexOf_get hia
  have hgb : l.get ⟨l.indexOf b, hib⟩ = b := List.indexOf_get hib
  have hgg : l.get ⟨l.indexOf a, hia⟩ = l.get ⟨l.indexOf b, hib⟩ := by
    congr 1
    exact Fin.ext hc
  rw [hga, hgb] at hgg
  exact hne hgg

theorem cyclicDist_self (n i : Nat) : cyclicDist n i i = 0 := by
  simp [cyclicDist]

theorem ite_cyclicDist_self (n L i : Nat) :
    (if cyclicDist n i i = 0 then L else cyclicDist n i i) = L := by
  simp [cyclicDist_self]

theorem cyclicDist_wrap_lt (n i : Nat) (hi : i < n) (hne : nextIdx n i ≠ i) :
    (if cyclicDist n (nextIdx n i) i = 0 then n else cyclicDist n (nextIdx n i) i)
      < n := by
  simp only [cyclicDist, nextIdx] at hne ⊢
  split_ifs at hne ⊢ <;> omega

/-- Canonical shape of a loop iteration that dequeues and sends a PDU. -/
theorem drainStep_send (st : DrainState) (c : Nat) (ch : L2capChannel) (pdu : Nat)
    (hlrd : st.mgr.lrd = some c) (hfind : findByCid st.mgr.channels c = some ch)
    (hcred : 0 < creditsFor st ch.transport) (hq : ch.queue.head? = some pdu) :
    drainStep st = .next
      { setCredits st ch.transport (creditsFor st ch.transport - 1) with
          mgr := ⟨popQueue st.mgr.channels c, Advance st.mgr.channels (some c),
            Advance st.mgr.channels (some c)⟩
          sent := st.sent ++ [(c, pdu)] } := by
  simp only [drainStep, hlrd, hfind, if_pos hcred, hq]

/-- Canonical shape of a loop iteration in which no PDU is dequeued: the
cursor advances, the terminus keeps its (re-seated) value, and the loop stops
exactly when the advanced cursor meets the terminus. -/
theorem drainStep_nosend (st : DrainState) (c : Nat) (ch : L2capChannel)
    (hlrd : st.mgr.lrd = some c) (hfind : findByCid st.mgr.channels c = some ch)
    (hnos : (if 0 < creditsFor st ch.transport then ch.queue.head? else none) = none) :
    drainStep st =
      if Advance st.mgr.channels (some c) = ter0Of st.mgr.terminus c then
        .done { st with mgr := ⟨st.mgr.channels, Advance st.mgr.channels (some c),
          ter0Of st.mgr.terminus c⟩ }
      else
        .next { st with mgr := ⟨st.mgr.channels, Advance st.mgr.channels (some c),
          ter0Of st.mgr.terminus c⟩ } := by
  simp only [drainStep, hlrd, hfind, hnos]

/-- Credit-sufficiency hypothesis: each transport has at least as many
available credits as PDUs queued on its channels. -/
def Plentiful (st : DrainState) : Prop :=
  ∀ t, queuedOn st.mgr.channels t ≤ creditsFor st t

/-- With sufficient credits, an iteration that does not dequeue found the
cursor channel's queue empty. -/
theorem nosend_queue_empty (st : DrainState) (c : Nat) (ch : L2capChannel)
    (hfind : findByCid st.mgr.channels c = some ch) (hplenty : Plentiful st)
    (hnos : (if 0 < creditsFor st ch.transport then ch.queue.head? else none) = none) :
    ch.queue = [] := by
  by_cases hcred : 0 < creditsFor st ch.transport
  · rw [if_pos hcred] at hnos
    exact List.head?_eq_none_iff.mp hnos
  · have hq := hplenty ch.transport
    have hmem := (findByCid_eq_some _ _ _ hfind).1
    have hle := queue_length_le_queuedOn st.mgr.channels ch hmem
    have : ch.queue.length = 0 := by omega
    exact List.length_eq_zero.mp this

theorem stepNext_props (st st1 : DrainState) (hwf : MgrWF st.mgr)
    (h : drainStep st = .next st1) :
    MgrWF st1.mgr ∧ drainMeasure st1 < drainMeasure st ∧
      cidsOf st1.mgr.channels = cidsOf st.mgr.channels := by
  obtain ⟨hnd, hnone, hlrdOn, hterOn⟩ := hwf
  cases hl : st.mgr.lrd with
  | none =>
      have hdone : drainStep st = .done st := by simp only [drainStep, hl]
      rw [hdone] at h
      cases h
  | some c =>
      have hc : c ∈ cidsOf st.mgr.channels := hlrdOn.mem hl
      obtain ⟨ch, hfind⟩ := findByCid_isSome_of_mem _ _ hc
      have hi : (cidsOf st.mgr.channels).indexOf c < (cidsOf st.mgr.channels).length :=
        List.indexOf_lt_length.mpr hc
      obtain ⟨e, hadvId, he⟩ := advanceId_mem (cidsOf st.mgr.channels) c hc
      have hadv : Advance st.mgr.channels (some c) = some e := hadvId
      have hie := advance_indexOf st.mgr.channels c e hnd hc hadv
      have hei : (cidsOf st.mgr.channels).indexOf e < (cidsOf st.mgr.channels).length :=
        List.indexOf_lt_length.mpr he
      by_cases hnos :
          (if 0 < creditsFor st ch.transport then ch.queue.head? else none) = none
      · -- iteration without a dequeue
        rw [drainStep_nosend st c ch hl hfind hnos, hadv] at h
        by_cases hbr : (some e : Option Nat) = ter0Of st.mgr.terminus c
        · rw [if_pos hbr] at h
          cases h
        · rw [if_neg hbr] at h
          injection h with hst1
          subst hst1
          refine ⟨⟨hnd, ?_, he, ?_⟩, ?_, rfl⟩
          · intro habs
            cases habs
          · cases ht : st.mgr.terminus with
            | none => exact hc
            | some t =>
                rw [ht] at hterOn
                exact hterOn
          · cases ht : st.mgr.terminus with
            | none =>
                have hec : e ≠ c := by
                  intro hee
                  exact hbr (by rw [hee, ht]; rfl)
                have hine : nextIdx (cidsOf st.mgr.channels).length
                    ((cidsOf st.mgr.channels).indexOf c) ≠
                      (cidsOf st.mgr.channels).indexOf c := by
                  rw [← hie]
                  exact indexOf_ne_of_ne _ e c he hc hec
                simp only [drainMeasure, distRemaining, hl, ht, ter0Of]
                have hstep := cyclicDist_wrap_lt (cidsOf st.mgr.channels).length
                  ((cidsOf st.mgr.channels).indexOf c) hi hine
                rw [← hie] at hstep
                have hlen := length_cidsOf st.mgr.channels
                omega
            | some t =>
                have hterm : t ∈ cidsOf st.mgr.channels := by
                  rw [ht] at hterOn
                  exact hterOn
                have hj : (cidsOf st.mgr.channels).indexOf t <
                    (cidsOf st.mgr.channels).length :=
                  List.indexOf_lt_length.mpr hterm
                have het : e ≠ t := by
                  intro hee
                  exact hbr (by rw [hee, ht]; rfl)
                have hine : nextIdx (cidsOf st.mgr.channels).length
                    ((cidsOf st.mgr.channels).indexOf c) ≠
                      (cidsOf st.mgr.channels).indexOf t := by
                  rw [← hie]
                  exact indexOf_ne_of_ne _ e t he hterm het
                simp only [drainMeasure, distRemaining, hl, ht, ter0Of]
                have hstep := cyclicDist_step_lt (cidsOf st.mgr.channels).length
                  ((cidsOf st.mgr.channels).indexOf c)
                  ((cidsOf st.mgr.channels).indexOf t) hi hj hine
                rw [← hie] at hstep
                omega
      · -- iteration that dequeues and sends
        have hcred : 0 < creditsFor st ch.transport := by
          by_contra hc0
          exact hnos (by rw [if_neg hc0])
        cases hqe : ch.queue.head? with
        | none => exact absurd (by rw [if_pos hcred, hqe]) hnos
        | some pdu =>
            rw [drainStep_send st c ch pdu hl hfind hcred hqe, hadv] at h
            injection h with hst1
            subst hst1
            have hqne : ch.queue ≠ [] := by
              intro hq0
              rw [hq0] at hqe
              cases hqe
            have hT := totalQueued_popQueue st.mgr.channels c ch hfind hqne
            refine ⟨⟨?_, ?_, ?_, ?_⟩, ?_, cidsOf_popQueue _ _⟩
            · exact (cidsOf_popQueue st.mgr.channels c).symm ▸ hnd
            · intro habs
              cases habs
            · exact ((cidsOf_popQueue st.mgr.channels c).symm ▸ he : _)
            · exact ((cidsOf_popQueue st.mgr.channels c).symm ▸ he : _)
            · simp only [drainMeasure, distRemaining, cidsOf_popQueue,
                length_popQueue]
              rw [ite_cyclicDist_self]
              have hlen := length_cidsOf st.mgr.channels
              have hmul : totalQueued (popQueue st.mgr.channels c) *
                    (st.mgr.channels.length + 1) + (st.mgr.channels.length + 1) =
                  totalQueued st.mgr.channels * (st.mgr.channels.length + 1) := by
                rw [← hT]
                ring
              omega

theorem drainStep_done_shape (st st1 : DrainState) (hwf : MgrWF st.mgr)
    (h : drainStep st = .done st1) :
    st1.mgr.channels = st.mgr.channels ∧ st1.sent = st.sent ∧
      (st.mgr.channels = [] → st1 = st) ∧
      (st1.mgr.channels = [] ∨ st1.mgr.lrd = st1.mgr.terminus) := by
  obtain ⟨hnd, hnone, hlrdOn, hterOn⟩ := hwf
  cases hl : st.mgr.lrd with
  | none =>
      have hdone : drainStep st = .done st := by simp only [drainStep, hl]
      rw [hdone] at h
      injection h with h1
      subst h1
      exact ⟨rfl, rfl, fun _ => rfl, Or.inl (hnone hl)⟩
  | some c =>
      have hc : c ∈ cidsOf st.mgr.channels := hlrdOn.mem hl
      obtain ⟨ch, hfind⟩ := findByCid_isSome_of_mem _ _ hc
      have hne : st.mgr.channels ≠ [] := by
        intro h0
        rw [h0] at hc
        exact absurd hc (by simp [cidsOf])
      by_cases hnos :
          (if 0 < creditsFor st ch.transport then ch.queue.head? else none) = none
      · rw [drainStep_nosend st c ch hl hfind hnos] at h
        by_cases hbr : Advance st.mgr.channels (some c) = ter0Of st.mgr.terminus c
        · rw [if_pos hbr] at h
          injection h with h1
          subst h1
          exact ⟨rfl, rfl, fun h0 => absurd h0 hne, Or.inr hbr⟩
        · rw [if_neg hbr] at h
          cases h
      · have hcred : 0 < creditsFor st ch.transport := by
          by_contra hc0
          exact hnos (by rw [if_neg hc0])
        cases hqe : ch.queue.head? with
        | none => exact absurd (by rw [if_pos hcred, hqe]) hnos
        | some pdu =>
            rw [drainStep_send st c ch pdu hl hfind hcred hqe] at h
            cases h

theorem drainFuel_succ (fuel : Nat) (st : DrainState) :
    drainFuel (fuel + 1) st =
      match drainStep st with
      | .done st1 => some st1
      | .next st1 => drainFuel fuel st1 := rfl

theorem drainFuel_terminates (k : Nat) :
    ∀ st : DrainState, MgrWF st.mgr → drainMeasure st ≤ k →
      ∃ st1, drainFuel (k + 1) st = some st1 ∧
        (st1.mgr.channels = [] ∨ st1.mgr.lrd = st1.mgr.terminus) := by
  induction k with
  | zero =>
      intro st hwf hm
      cases hstep : drainStep st with
      | done st1 =>
          exact ⟨st1, by rw [drainFuel_succ, hstep],
            (drainStep_done_shape st st1 hwf hstep).2.2.2⟩
      | next st1 =>
          obtain ⟨_, hlt, _⟩ := stepNext_props st st1 hwf hstep
          omega
  | succ k ih =>
      intro st hwf hm
      cases hstep : drainStep st with
      | done st1 =>
          exact ⟨st1, by rw [drainFuel_succ, hstep],
            (drainStep_done_shape st st1 hwf hstep).2.2.2⟩
      | next st1 =>
          obtain ⟨hwf1, hlt, _⟩ := stepNext_props st st1 hwf hstep
          obtain ⟨st2, hst2, hstop⟩ := ih st1 hwf1 (by omega)
          refine ⟨st2, ?_, hstop⟩
          rw [drainFuel_succ, hstep]
          exact hst2

/-- C5.  Drain termination: on any well-formed registry state with finite
queues and credits, the `DrainChannelQueues` loop stops within
`drainMeasure st` iterations, and when it stops the registry is either empty
or the least-recently-drained cursor has come back to the terminus after a
full pass without a dequeue (the loop's only two exits); when the registry is
empty it returns immediately, leaving the state untouched. -/
theorem drain_termination (st : DrainState) (hwf : MgrWF st.mgr) :
    (∃ st1, drainFuel (drainMeasure st + 1) st = some st1 ∧
      (st1.mgr.channels = [] ∨ st1.mgr.lrd = st1.mgr.terminus)) ∧
    (st.mgr.channels = [] → drainFuel 1 st = some st) := by
  refine ⟨drainFuel_terminates (drainMeasure st) st hwf (Nat.le_refl _), ?_⟩
  intro hempty
  obtain ⟨hnd, hnone, hlrdOn, hterOn⟩ := hwf
  have hl : st.mgr.lrd = none := by
    cases hlc : st.mgr.lrd with
    | none => rfl
    | some c =>
        have := hlrdOn.mem hlc
        rw [hempty] at this
        exact absurd this (by simp [cidsOf])
  have hdone : drainStep st = .done st := by simp only [drainStep, hl]
  rw [show (1 : Nat) = 0 + 1 from rfl, drainFuel_succ, hdone]

/-- C5 witness: a one-channel registry with one queued PDU and one credit. -/
theorem drain_termination_witness :
    MgrWF (⟨⟨[⟨1, .le, [5]⟩], some 1, none⟩, 1, 0, []⟩ : DrainState).mgr ∧
      ∃ st1, drainFuel
          (drainMeasure (⟨⟨[⟨1, .le, [5]⟩], some 1, none⟩, 1, 0, []⟩ : DrainState) + 1)
          (⟨⟨[⟨1, .le, [5]⟩], some 1, none⟩, 1, 0, []⟩ : DrainState) = some st1 ∧
        (st1.mgr.channels = [] ∨ st1.mgr.lrd = st1.mgr.terminus) :=
  ⟨by decide,
    (drain_termination (⟨⟨[⟨1, .le, [5]⟩], some 1, none⟩, 1, 0, []⟩ : DrainState)
      (by decide)).1⟩

/-- Number of PDUs sent so far on behalf of channel `e`. -/
def sentTo (st : DrainState) (e : Nat) : Nat := (st.sent.map Prod.fst).count e

theorem creditsFor_update (X : DrainState) (M : L2capChannelManager)
    (s : List (Nat × Nat)) (t : AclTransportType) :
    creditsFor { X with mgr := M, sent := s } t = creditsFor X t := by
  cases t <;> rfl

theorem stepNext_extras (st st1 : DrainState) (hwf : MgrWF st.mgr)
    (h : drainStep st = .next st1) (hp : Plentiful st) :
    Plentiful st1 ∧
      st1.sent.length + totalQueued st1.mgr.channels =
        st.sent.length + totalQueued st.mgr.channels ∧
      ∀ e, sentTo st1 e + (queueOfCid st1.mgr.channels e).length =
        sentTo st e + (queueOfCid st.mgr.channels e).length := by
  obtain ⟨hnd, hnone, hlrdOn, hterOn⟩ := hwf
  cases hl : st.mgr.lrd with
  | none =>
      have hdone : drainStep st = .done st := by simp only [drainStep, hl]
      rw [hdone] at h
      cases h
  | some c =>
      have hc : c ∈ cidsOf st.mgr.channels := hlrdOn.mem hl
      obtain ⟨ch, hfind⟩ := findByCid_isSome_of_mem _ _ hc
      by_cases hnos :
          (if 0 < creditsFor st ch.transport then ch.queue.head? else none) = none
      · rw [drainStep_nosend st c ch hl hfind hnos] at h
        by_cases hbr : Advance st.mgr.channels (some c) = ter0Of st.mgr.terminus c
        · rw [if_pos hbr] at h
          cases h
        · rw [if_neg hbr] at h
          injection h with hst1
          subst hst1
          exact ⟨fun t => hp t, rfl, fun e => rfl⟩
      · have hcred : 0 < creditsFor st ch.transport := by
          by_contra hc0
          exact hnos (by rw [if_neg hc0])
        cases hqe : ch.queue.head? with
        | none => exact absurd (by rw [if_pos hcred, hqe]) hnos
        | some pdu =>
            rw [drainStep_send st c ch pdu hl hfind hcred hqe] at h
            injection h with hst1
            subst hst1
            have hqne : ch.queue ≠ [] := by
              intro h0
              rw [h0] at hqe
              cases hqe
            have hlen : ch.queue.tail.length + 1 = ch.queue.length := by
              cases hcq : ch.queue with
              | nil => exact absurd hcq hqne
              | cons a as => simp [hcq]
            refine ⟨?_, ?_, ?_⟩
            · intro t
              show queuedOn (popQueue st.mgr.channels c) t ≤ _
              rw [creditsFor_update]
              by_cases ht : t = ch.transport
              · subst ht
                rw [creditsFor_setCredits_self]
                have h1 := queuedOn_popQueue_self st.mgr.channels c ch hfind hqne
                have h2 := hp ch.transport
                omega
              · rw [creditsFor_setCredits_other _ _ _ _ ht,
                  queuedOn_popQueue_other st.mgr.channels c ch hfind t ht]
                exact hp t
            · show (st.sent ++ [(c, pdu)]).length + totalQueued (popQueue _ _) = _
              have hT := totalQueued_popQueue st.mgr.channels c ch hfind hqne
              simp only [List.length_append, List.length_singleton]
              omega
            · intro e
              show sentTo _ e + (queueOfCid (popQueue _ _) e).length = _
              by_cases he : e = c
              · subst he
                have hqs : queueOfCid (popQueue st.mgr.channels e) e = ch.queue.tail := by
                  simp [queueOfCid, findByCid_popQueue_self, hfind]
                have hqo : queueOfCid st.mgr.channels e = ch.queue := by
                  simp [queueOfCid, hfind]
                have hcount : ((st.sent ++ [(e, pdu)]).map Prod.fst).count e =
                    (st.sent.map Prod.fst).count e + 1 := by
                  simp [List.count_append]
                simp only [sentTo, hqs, hqo]
                rw [hcount]
                omega
              · have hqs : queueOfCid (popQueue st.mgr.channels c) e =
                    queueOfCid st.mgr.channels e := by
                  simp [queueOfCid, findByCid_popQueue_ne st.mgr.channels c e he]
                have hcount : ((st.sent ++ [(c, pdu)]).map Prod.fst).count e =
                    (st.sent.map Prod.fst).count e := by
                  simp [List.count_append, List.count_cons, he]
                simp only [sentTo, hqs]
                rw [hcount]

theorem indexOf_inj_mem (l : List Nat) (a b : Nat) (ha : a ∈ l) (hb : b ∈ l)
    (h : l.indexOf a = l.indexOf b) : a = b := by
  by_contra hne
  exact indexOf_ne_of_ne l a b ha hb hne h

theorem cyclicDist_lt_next_self (n i x : Nat) (hi : i < n) (hx : x < n)
    (hne : nextIdx n i ≠ i) :
    cyclicDist n i x < cyclicDist n i (nextIdx n i) → x = i := by
  simp only [cyclicDist, nextIdx] at hne ⊢
  split_ifs at hne ⊢ <;> omega

theorem cyclicDist_window_step (n j i x : Nat) (hi : i < n) (hj : j < n) (hx : x < n)
    (hne : nextIdx n i ≠ j) :
    cyclicDist n j x < cyclicDist n j (nextIdx n i) →
      cyclicDist n j x < cyclicDist n j i ∨ x = i := by
  simp only [cyclicDist, nextIdx] at hne ⊢
  split_ifs at hne ⊢ <;> omega

theorem cyclicDist_break (n i j x : Nat) (hi : i < n) (hj : j < n) (hx : x < n)
    (hnext : nextIdx n i = j) (hxi : x ≠ i) :
    cyclicDist n j x < cyclicDist n j i := by
  simp only [cyclicDist, nextIdx] at hnext ⊢
  split_ifs at hnext ⊢ <;> omega

/-- Pass invariant of the round-robin sweep: every channel the cursor has
visited since the terminus was last (re-)seated — those strictly closer to
the terminus, in forward cyclic order, than the cursor is — was found with an
empty queue. -/
def PassInv (st : DrainState) : Prop :=
  ∀ c t, st.mgr.lrd = some c → st.mgr.terminus = some t →
    ∀ e ∈ cidsOf st.mgr.channels,
      cyclicDist (cidsOf st.mgr.channels).length
          ((cidsOf st.mgr.channels).indexOf t)
          ((cidsOf st.mgr.channels).indexOf e) <
        cyclicDist (cidsOf st.mgr.channels).length
          ((cidsOf st.mgr.channels).indexOf t)
          ((cidsOf st.mgr.channels).indexOf c) →
      queueOfCid st.mgr.channels e = []

theorem stepNext_passinv (st st1 : DrainState) (hwf : MgrWF st.mgr)
    (hp : Plentiful st) (hpass : PassInv st) (h : drainStep st = .next st1) :
    PassInv st1 := by
  obtain ⟨hnd, hnone, hlrdOn, hterOn⟩ := hwf
  cases hl : st.mgr.lrd with
  | none =>
      have hdone : drainStep st = .done st := by simp only [drainStep, hl]
      rw [hdone] at h
      cases h
  | some c =>
      have hc : c ∈ cidsOf st.mgr.channels := hlrdOn.mem hl
      obtain ⟨ch, hfind⟩ := findByCid_isSome_of_mem _ _ hc
      have hi : (cidsOf st.mgr.channels).indexOf c < (cidsOf st.mgr.channels).length :=
        List.indexOf_lt_length.mpr hc
      obtain ⟨e, hadvId, he⟩ := advanceId_mem (cidsOf st.mgr.channels) c hc
      have hadv : Advance st.mgr.channels (some c) = some e := hadvId
      have hie := advance_indexOf st.mgr.channels c e hnd hc hadv
      by_cases hnos :
          (if 0 < creditsFor st ch.transport then ch.queue.head? else none) = none
      · rw [drainStep_nosend st c ch hl hfind hnos, hadv] at h
        by_cases hbr : (some e : Option Nat) = ter0Of st.mgr.terminus c
        · rw [if_pos hbr] at h
          cases h
        · rw [if_neg hbr] at h
          injection h with hst1
          subst hst1
          have hqec : ch.queue = [] := nosend_queue_empty st c ch hfind hp hnos
          dsimp only [PassInv]
          intro c' t' hc' ht' e' he' hwin
          have hc'e : c' = e := (Option.some.inj hc').symm
          have hxe : (cidsOf st.mgr.channels).indexOf e' <
              (cidsOf st.mgr.channels).length := List.indexOf_lt_length.mpr he'
          cases ht : st.mgr.terminus with
          | none =>
              rw [ht] at ht'
              have ht'c : t' = c := by
                simpa [ter0Of] using ht'.symm
              rw [hc'e, ht'c] at hwin
              have hec : e ≠ c := by
                intro hee
                exact hbr (by rw [hee, ht]; rfl)
              have hnei : nextIdx (cidsOf st.mgr.channels).length
                  ((cidsOf st.mgr.channels).indexOf c) ≠
                    (cidsOf st.mgr.channels).indexOf c := by
                rw [← hie]
                exact indexOf_ne_of_ne _ e c he hc hec
              rw [hie] at hwin
              have hxi := cyclicDist_lt_next_self (cidsOf st.mgr.channels).length
                ((cidsOf st.mgr.channels).indexOf c)
                ((cidsOf st.mgr.channels).indexOf e') hi hxe hnei hwin
              have he'c : e' = c := indexOf_inj_mem _ _ _ he' hc hxi
              rw [he'c]
              simp [queueOfCid, hfind, hqec]
          | some t =>
              rw [ht] at ht'
              have ht't : t' = t := by
                simpa [ter0Of] using ht'.symm
              rw [hc'e, ht't] at hwin
              have hterm : t ∈ cidsOf st.mgr.channels := hterOn.mem ht
              have hj : (cidsOf st.mgr.channels).indexOf t <
                  (cidsOf st.mgr.channels).length := List.indexOf_lt_length.mpr hterm
              have het : e ≠ t := by
                intro hee
                exact hbr (by rw [hee, ht]; rfl)
              have hnei : nextIdx (cidsOf st.mgr.channels).length
                  ((cidsOf st.mgr.channels).indexOf c) ≠
                    (cidsOf st.mgr.channels).indexOf t := by
                rw [← hie]
                exact indexOf_ne_of_ne _ e t he hterm het
              rw [hie] at hwin
              rcases cyclicDist_window_step (cidsOf st.mgr.channels).length
                  ((cidsOf st.mgr.channels).indexOf t)
                  ((cidsOf st.mgr.channels).indexOf c)
                  ((cidsOf st.mgr.channels).indexOf e') hi hj hxe hnei hwin with
                hlt | heq
              · exact hpass c t hl ht e' he' hlt
              · have he'c : e' = c := indexOf_inj_mem _ _ _ he' hc heq
                rw [he'c]
                simp [queueOfCid, hfind, hqec]
      · have hcred : 0 < creditsFor st ch.transport := by
          by_contra hc0
          exact hnos (by rw [if_neg hc0])
        cases hqe : ch.queue.head? with
        | none => exact absurd (by rw [if_pos hcred, hqe]) hnos
        | some pdu =>
            rw [drainStep_send st c ch pdu hl hfind hcred hqe, hadv] at h
            injection h with hst1
            subst hst1
            dsimp only [PassInv]
            intro c' t' hc' ht' e' he' hwin
            have hc'e : c' = e := (Option.some.inj hc').symm
            have ht'e : t' = e := (Option.some.inj ht').symm
            rw [hc'e, ht'e, cyclicDist_self] at hwin
            exact absurd hwin (Nat.not_lt_zero _)

theorem drainStep_done_empty (st st1 : DrainState) (hwf : MgrWF st.mgr)
    (hp : Plentiful st) (hpass : PassInv st) (h : drainStep st = .done st1) :
    ∀ ch1 ∈ st1.mgr.channels, ch1.queue = [] := by
  obtain ⟨hnd, hnone, hlrdOn, hterOn⟩ := hwf
  cases hl : st.mgr.lrd with
  | none =>
      have hdone : drainStep st = .done st := by simp only [drainStep, hl]
      rw [hdone] at h
      injection h with h1
      subst h1
      intro ch1 hch1
      rw [hnone hl] at hch1
      exact absurd hch1 (List.not_mem_nil ch1)
  | some c =>
      have hc : c ∈ cidsOf st.mgr.channels := hlrdOn.mem hl
      obtain ⟨ch, hfind⟩ := findByCid_isSome_of_mem _ _ hc
      have hi : (cidsOf st.mgr.channels).indexOf c < (cidsOf st.mgr.channels).length :=
        List.indexOf_lt_length.mpr hc
      obtain ⟨e, hadvId, he⟩ := advanceId_mem (cidsOf st.mgr.channels) c hc
      have hadv : Advance st.mgr.channels (some c) = some e := hadvId
      have hie := advance_indexOf st.mgr.channels c e hnd hc hadv
      by_cases hnos :
          (if 0 < creditsFor st ch.transport then ch.queue.head? else none) = none
      · rw [drainStep_nosend st c ch hl hfind hnos, hadv] at h
        by_cases hbr : (some e : Option Nat) = ter0Of st.mgr.terminus c
        · rw [if_pos hbr] at h
          injection h with h1
          subst h1
          have hqec : ch.queue = [] := nosend_queue_empty st c ch hfind hp hnos
          intro ch1 hch1
          have hch1' : ch1 ∈ st.mgr.channels := hch1
          have hmem : ch1.cid ∈ cidsOf st.mgr.channels :=
            List.mem_map_of_mem L2capChannel.cid hch1'
          have hfind1 : findByCid st.mgr.channels ch1.cid = some ch1 :=
            findByCid_of_mem_nodup _ _ hnd hch1'
          have hsuff : queueOfCid st.mgr.channels ch1.cid = [] → ch1.queue = [] := by
            intro hq
            simpa [queueOfCid, hfind1] using hq
          apply hsuff
          cases ht : st.mgr.terminus with
          | none =>
              rw [ht] at hbr
              have hec : e = c := by simpa [ter0Of] using hbr
              have hni : nextIdx (cidsOf st.mgr.channels).length
                  ((cidsOf st.mgr.channels).indexOf c) =
                    (cidsOf st.mgr.channels).indexOf c := by
                rw [← hie, hec]
              have hn1 : (cidsOf st.mgr.channels).length = 1 := by
                simp only [nextIdx] at hni
                split_ifs at hni <;> omega
              obtain ⟨a, ha⟩ := List.length_eq_one.mp hn1
              rw [ha] at hmem hc
              have h1 : ch1.cid = a := by simpa using hmem
              have h2 : c = a := by simpa using hc
              rw [h1, ← h2]
              simp [queueOfCid, hfind, hqec]
          | some t =>
              rw [ht] at hbr
              have het : e = t := by simpa [ter0Of] using hbr
              have hterm : t ∈ cidsOf st.mgr.channels := hterOn.mem ht
              have hj : (cidsOf st.mgr.channels).indexOf t <
                  (cidsOf st.mgr.channels).length := List.indexOf_lt_length.mpr hterm
              have hnij : nextIdx (cidsOf st.mgr.channels).length
                  ((cidsOf st.mgr.channels).indexOf c) =
                    (cidsOf st.mgr.channels).indexOf t := by
                rw [← hie, het]
              by_cases hec : ch1.cid = c
              · rw [hec]
                simp [queueOfCid, hfind, hqec]
              · have hxe : (cidsOf st.mgr.channels).indexOf ch1.cid <
                    (cidsOf st.mgr.channels).length := List.indexOf_lt_length.mpr hmem
                have hxi : (cidsOf st.mgr.channels).indexOf ch1.cid ≠
                    (cidsOf st.mgr.channels).indexOf c :=
                  fun hcon => hec (indexOf_inj_mem _ _ _ hmem hc hcon)
                have hwin := cyclicDist_break (cidsOf st.mgr.channels).length
                  ((cidsOf st.mgr.channels).indexOf c)
                  ((cidsOf st.mgr.channels).indexOf t)
                  ((cidsOf st.mgr.channels).indexOf ch1.cid) hi hj hxe hnij hxi
                exact hpass c t hl ht ch1.cid hmem hwin
        · rw [if_neg hbr] at h
          cases h
      · have hcred : 0 < creditsFor st ch.transport := by
          by_contra hc0
          exact hnos (by rw [if_neg hc0])
        cases hqe : ch.queue.head? with
        | none => exact absurd (by rw [if_pos hcred, hqe]) hnos
        | some pdu =>
            rw [drainStep_send st c ch pdu hl hfind hcred hqe] at h
            cases h

theorem drainFuel_invariants :
    ∀ (fuel : Nat) (st st1 : DrainState), MgrWF st.mgr → Plentiful st → PassInv st →
      drainFuel fuel st = some st1 →
      (∀ ch1 ∈ st1.mgr.channels, ch1.queue = []) ∧
        st1.sent.length + totalQueued st1.mgr.channels =
          st.sent.length + totalQueued st.mgr.channels ∧
        ∀ e, sentTo st1 e + (queueOfCid st1.mgr.channels e).length =
          sentTo st e + (queueOfCid st.mgr.channels e).length := by
  intro fuel
  induction fuel with
  | zero =>
      intro st st1 _ _ _ hrun
      cases hrun
  | succ f ih =>
      intro st st1 hwf hp hpass hrun
      rw [drainFuel_succ] at hrun
      cases hstep : drainStep st with
      | done st1' =>
          rw [hstep] at hrun
          injection hrun with h1
          subst h1
          obtain ⟨hch, hsent, _, _⟩ := drainStep_done_shape st st1' hwf hstep
          refine ⟨drainStep_done_empty st st1' hwf hp hpass hstep, ?_, ?_⟩
          · rw [hch, hsent]
          · intro e
            have hse : sentTo st1' e = sentTo st e := by
              simp [sentTo, hsent]
            rw [hch, hse]
      | next st1' =>
          rw [hstep] at hrun
          obtain ⟨hwf1, _, hcids⟩ := stepNext_props st st1' hwf hstep
          obtain ⟨hp1, hlen1, hcons1⟩ := stepNext_extras st st1' hwf hstep hp
          have hpass1 := stepNext_passinv st st1' hwf hp hpass hstep
          obtain ⟨hemp, hlen2, hcons2⟩ := ih st1' st1 hwf1 hp1 hpass1 hrun
          refine ⟨hemp, by omega, ?_⟩
          intro e
          have h1 := hcons1 e
          have h2 := hcons2 e
          omega

/-- C4.  Round-robin fairness: from a well-formed at-rest registry state
(terminus at `end()` or equal to the cursor, no sends recorded yet) in which
every registered channel has exactly one queued PDU and every transport has
at least as many credits as queued PDUs, one invocation of
`DrainChannelQueues` stops and sends exactly one PDU on behalf of every
registered channel — `N` sends in total for `N` channels, one per channel, so
no channel sends a second PDU before every other channel has sent its
first. -/
theorem round_robin_fairness (st : DrainState) (hwf : MgrWF st.mgr)
    (hsent0 : st.sent = [])
    (hrest : st.mgr.terminus = none ∨ st.mgr.terminus = st.mgr.lrd)
    (hone : ∀ ch ∈ st.mgr.channels, ch.queue.length = 1)
    (hp : Plentiful st) :
    ∃ st1, drainFuel (drainMeasure st + 1) st = some st1 ∧
      st1.sent.length = st.mgr.channels.length ∧
      ∀ ch ∈ st.mgr.channels, sentTo st1 ch.cid = 1 := by
  obtain ⟨hnd, hnone, hlrdOn, hterOn⟩ := hwf
  have hpass : PassInv st := by
    intro c t hc ht e' he' hwin
    rcases hrest with h0 | h0
    · rw [h0] at ht
      cases ht
    · have hlt : st.mgr.lrd = some t := h0.symm.trans ht
      have htc : t = c := Option.some.inj (hc.symm.trans hlt).symm
      subst htc
      rw [cyclicDist_self] at hwin
      exact absurd hwin (Nat.not_lt_zero _)
  obtain ⟨st1, hrun, _⟩ :=
    drainFuel_terminates (drainMeasure st) st ⟨hnd, hnone, hlrdOn, hterOn⟩
      (Nat.le_refl _)
  obtain ⟨hemp, hlen, hcons⟩ :=
    drainFuel_invariants (drainMeasure st + 1) st st1
      ⟨hnd, hnone, hlrdOn, hterOn⟩ hp hpass hrun
  refine ⟨st1, hrun, ?_, ?_⟩
  · have htq1 : totalQueued st1.mgr.channels = 0 := by
      unfold totalQueued
      apply List.sum_eq_zero
      intro x hx
      obtain ⟨ch1, hch1, hxx⟩ := List.mem_map.mp hx
      rw [← hxx, hemp ch1 hch1]
      rfl
    have htq : totalQueued st.mgr.channels = st.mgr.channels.length := by
      unfold totalQueued
      have hmap : st.mgr.channels.map (fun ch => ch.queue.length) =
          st.mgr.channels.map (fun _ => 1) := List.map_congr_left hone
      rw [hmap]
      simp [List.map_const]
    rw [hsent0] at hlen
    simp only [List.length_nil] at hlen
    omega
  · intro ch hch
    have hfind := findByCid_of_mem_nodup st.mgr.channels ch hnd hch
    have hq0 : queueOfCid st.mgr.channels ch.cid = ch.queue := by
      simp [queueOfCid, hfind]
    have hs0 : sentTo st ch.cid = 0 := by simp [sentTo, hsent0]
    have hq1 : (queueOfCid st1.mgr.channels ch.cid).length = 0 := by
      cases hfind1 : findByCid st1.mgr.channels ch.cid with
      | none => simp [queueOfCid, hfind1]
      | some ch1 =>
          have hm := (findByCid_eq_some _ _ _ hfind1).1
          simp [queueOfCid, hfind1, hemp ch1 hm]
    have hcc := hcons ch.cid
    rw [hq0, hs0, hq1, hone ch hch] at hcc
    omega

/-- C4 witness: two LE channels with one PDU each, two LE credits, cursor on
the first channel and terminus at `end()`; the drain sends one PDU for each
channel. -/
theorem round_robin_fairness_witness :
    MgrWF (⟨⟨[⟨1, .le, [10]⟩, ⟨2, .le, [20]⟩], some 1, none⟩, 2, 0, []⟩
        : DrainState).mgr ∧
      ∃ st1, drainFuel
          (drainMeasure (⟨⟨[⟨1, .le, [10]⟩, ⟨2, .le, [20]⟩], some 1, none⟩, 2, 0, []⟩
            : DrainState) + 1)
          (⟨⟨[⟨1, .le, [10]⟩, ⟨2, .le, [20]⟩], some 1, none⟩, 2, 0, []⟩
            : DrainState) = some st1 ∧
        st1.sent.length = 2 ∧
        ∀ ch ∈ [(⟨1, .le, [10]⟩ : L2capChannel), ⟨2, .le, [20]⟩],
          sentTo st1 ch.cid = 1 := by
  refine ⟨by decide, ?_⟩
  have h := round_robin_fairness
    (⟨⟨[⟨1, .le, [10]⟩, ⟨2, .le, [20]⟩], some 1, none⟩, 2, 0, []⟩ : DrainState)
    (by decide) rfl (Or.inl rfl) (by decide)
    (by
      intro t
      cases t <;> decide)
  exact h

/-! Section 4: the `sendGattNotify` client call, modelled from the spec
(section 6 and properties P5/P6; the implementation file is not among the
sources, its unit tests are). -/

/-- Maximum valid ACL connection handle (`connection_handle ≤ 0x0EFF`). -/
def kMaxConnectionHandle : Nat := 0x0EFF

/-- Modelled from the spec: client-visible state of the proxy's GATT-notify
send path — available LE send credits, whether one send buffer is still
outstanding (not yet released back to the pool), the largest attribute
payload that fits the maximum ACL send size, and how many packets were handed
to the send-to-controller sink. -/
structure GattNotifyState where
  available : Nat
  pendingSend : Bool
  maxAttributeSize : Nat
  sendsCalled : Nat
deriving DecidableEq, Repr

/-- Modelled from the spec: `sendGattNotify(connection_handle,
attribute_handle, attribute_value)` — validates its arguments
(`connection_handle ≤ 0x0EFF`, `attribute_handle ≠ 0`, payload within the
maximum ACL send size), returning `InvalidArgument` otherwise; returns
`Unavailable` while a previous send is outstanding (only one send at a time)
or when no free credit remains; otherwise consumes one credit, invokes the
sink once, and leaves the send outstanding until its buffer is released. -/
def sendGattNotify (s : GattNotifyState)
    (connectionHandle attributeHandle payloadLen : Nat) : GattNotifyState × Status :=
  if connectionHandle > kMaxConnectionHandle ∨ attributeHandle = 0 ∨
      payloadLen > s.maxAttributeSize then
    (s, .invalidArgument)
  else if s.pendingSend then
    (s, .unavailable)
  else if s.available = 0 then
    (s, .unavailable)
  else
    ({ s with
        available := s.available - 1
        pendingSend := true
        sendsCalled := s.sendsCalled + 1 },
      .ok)

/-- Modelled from the spec: destroying the outstanding packet releases its
buffer back to the pool (and triggers a queue re-drain), allowing the next
send. -/
def releaseGattSendBuffer (s : GattNotifyState) : GattNotifyState :=
  { s with pendingSend := false }

/-- C7.  Send exclusivity: while one `sendGattNotify` packet is outstanding,
a further call with valid arguments returns `Unavailable` and changes nothing
— even though free send credits remain — and once the outstanding buffer is
released, the next call with valid arguments succeeds (and becomes the new
outstanding send). -/
theorem gatt_send_exclusivity (s : GattNotifyState) (ch ah len : Nat)
    (hch : ch ≤ kMaxConnectionHandle) (hah : ah ≠ 0)
    (hlen : len ≤ s.maxAttributeSize) (hpend : s.pendingSend = true)
    (hav : 0 < s.available) :
    (sendGattNotify s ch ah len).2 = .unavailable ∧
    (sendGattNotify s ch ah len).1 = s ∧
    (sendGattNotify (releaseGattSendBuffer s) ch ah len).2 = .ok ∧
    (sendGattNotify (releaseGattSendBuffer s) ch ah len).1.pendingSend = true := by
  have hvalid : ¬(ch > kMaxConnectionHandle ∨ ah = 0 ∨ len > s.maxAttributeSize) := by
    push_neg
    exact ⟨by omega, hah, by omega⟩
  have hne0 : ¬ s.available = 0 := by omega
  refine ⟨?_, ?_, ?_, ?_⟩ <;>
    simp [sendGattNotify, releaseGattSendBuffer, hvalid, hpend, hne0]

/-- C7 witness: two credits, one send outstanding; the next call is refused,
and succeeds after the buffer release. -/
theorem gatt_send_exclusivity_witness :
    (sendGattNotify ⟨2, true, 10, 1⟩ 123 345 2).2 = .unavailable ∧
      (sendGattNotify (releaseGattSendBuffer ⟨2, true, 10, 1⟩) 123 345 2).2 = .ok := by
  have h := gatt_send_exclusivity ⟨2, true, 10, 1⟩ 123 345 2 (by decide) (by decide)
    (by decide) rfl (by decide)
  exact ⟨h.1, h.2.2.1⟩

/-- C8.  Argument validation: a `sendGattNotify` call whose connection handle
exceeds 0x0EFF, whose attribute handle is zero, or whose payload exceeds the
maximum ACL send size returns `InvalidArgument`, leaves the state unchanged,
and invokes the send-to-controller sink zero times. -/
theorem gatt_invalid_arguments (s : GattNotifyState) (ch ah len : Nat)
    (h : ch > kMaxConnectionHandle ∨ ah = 0 ∨ len > s.maxAttributeSize) :
    (sendGattNotify s ch ah len).2 = .invalidArgument ∧
    (sendGattNotify s ch ah len).1 = s ∧
    (sendGattNotify s ch ah len).1.sendsCalled = s.sendsCalled := by
  unfold sendGattNotify
  rw [if_pos h]
  exact ⟨rfl, rfl, rfl⟩

/-- C8 witness: the three invalid calls of the unit test — handle 0x0FFF,
attribute handle 0, and a 3-byte payload against a 2-byte maximum. -/
theorem gatt_invalid_arguments_witness :
    (sendGattNotify ⟨0, false, 2, 0⟩ 0x0FFF 345 2).2 = .invalidArgument ∧
    (sendGattNotify ⟨0, false, 2, 0⟩ 123 0 2).2 = .invalidArgument ∧
    (sendGattNotify ⟨0, false, 2, 0⟩ 123 345 3).2 = .invalidArgument :=
  ⟨(gatt_invalid_arguments ⟨0, false, 2, 0⟩ 0x0FFF 345 2 (Or.inl (by decide))).1,
   (gatt_invalid_arguments ⟨0, false, 2, 0⟩ 123 0 2 (Or.inr (Or.inl rfl))).1,
   (gatt_invalid_arguments ⟨0, false, 2, 0⟩ 123 345 3 (Or.inr (Or.inr (by decide)))).1⟩

/-! Section 5: the outbound H4 buffer pool and
`L2capChannelManager::GetAclH4Packet` (the latter embedded from the source;
the pool bookkeeping of `H4Storage` is modelled from the spec: a fixed set of
fixed-size buffers, reserved and released individually). -/

/-- H4 framing type tag of a packet. -/
inductive H4PacketType where
  | command
  | event
  | aclData
  | unknown
deriving DecidableEq, Repr

/-- Modelled from the spec: occupancy state of the fixed H4 buffer pool
(`H4Storage`) — the fixed per-buffer capacity and one in-use flag per
slot. -/
structure H4Storage where
  buffSize : Nat
  used : List Bool
deriving DecidableEq, Repr

/-- Index of the first free slot of the pool, if any. -/
def firstFree : List Bool → Option Nat
  | [] => none
  | b :: rest => if b then (firstFree rest).map (· + 1) else some 0

/-- Modelled from the spec: `H4Storage::ReserveH4Buff` hands out a free slot,
marking it in use, or fails when every slot is taken. -/
def ReserveH4Buff (s : H4Storage) : Option (Nat × H4Storage) :=
  match firstFree s.used with
  | none => none
  | some i => some (i, { s with used := s.used.set i true })

/-- Modelled from the spec: `H4Storage::ReleaseH4Buff` returns a slot to the
pool. -/
def ReleaseH4Buff (s : H4Storage) (i : Nat) : H4Storage :=
  { s with used := s.used.set i false }

/-- An outbound H4 packet handed to a sender: the slot index of its backing
buffer, the requested size, and the H4 framing type. -/
structure H4PacketWithH4 where
  bufIndex : Nat
  size : Nat
  h4Type : H4PacketType
deriving DecidableEq, Repr

/-- Result of `GetAclH4Packet` (a `pw::Result<H4PacketWithH4>` whose success
value carries the updated pool). -/
inductive AcqResult where
  | invalidArgument
  | unavailable
  | acquired (storage : H4Storage) (packet : H4PacketWithH4)
deriving DecidableEq, Repr

/-- `L2capChannelManager::GetAclH4Packet`, embedded from the source: refuse a
request larger than the H4 buffer size (`InvalidArgument`); fail with
`Unavailable` when no H4 buffer is free; otherwise hand out a packet of the
requested size over the reserved buffer, tagged `ACL_DATA`, whose release
callback returns the buffer to the storage and re-runs
`DrainChannelQueues`. -/
def GetAclH4Packet (s : H4Storage) (size : Nat) : AcqResult :=
  if size > s.buffSize then .invalidArgument
  else
    match ReserveH4Buff s with
    | none => .unavailable
    | some is1 => .acquired is1.2 ⟨is1.1, size, .aclData⟩

/-- Release callback of an acquired ACL H4 packet, embedded from the
release_fn installed by the source: return the buffer slot to the pool, then
re-drain the channel queues. -/
def releaseAclH4Packet (s : H4Storage) (pkt : H4PacketWithH4) (st : DrainState)
    (fuel : Nat) : H4Storage × Option DrainState :=
  (ReleaseH4Buff s pkt.bufIndex, drainFuel fuel st)

theorem firstFree_spec (l : List Bool) :
    ∀ i, firstFree l = some i → i < l.length ∧ l[i]? = some false := by
  induction l with
  | nil =>
      intro i h
      cases h
  | cons b rest ih =>
      intro i h
      by_cases hb : b = true
      · rw [show firstFree (b :: rest) = (firstFree rest).map (· + 1) from by
          simp [firstFree, hb]] at h
        obtain ⟨j, hj, hij⟩ := Option.map_eq_some'.mp h
        obtain ⟨hjl, hjv⟩ := ih j hj
        refine ⟨by simp; omega, ?_⟩
        rw [← hij]
        simpa using hjv
      · have hb' : b = false := by
          cases b
          · rfl
          · exact absurd rfl hb
        rw [show firstFree (b :: rest) = some 0 from by simp [firstFree, hb']] at h
        injection h with h0
        subst h0
        exact ⟨by simp, by simp [hb']⟩

theorem set_of_getElem? (l : List Bool) :
    ∀ (i : Nat) (b : Bool), l[i]? = some b → l.set i b = l := by
  induction l with
  | nil =>
      intro i b h
      cases h
  | cons x xs ih =>
      intro i b h
      cases i with
      | zero =>
          simp only [List.getElem?_cons_zero] at h
          injection h with h0
          rw [← h0]
          rfl
      | succ j =>
          simp only [List.getElem?_cons_succ] at h
          simp [List.set_cons_succ, ih j b h]

/-- C9.  Buffer acquisition contract: `GetAclH4Packet` returns
`InvalidArgument` when the requested size exceeds the fixed H4 buffer
capacity, `Unavailable` when no pool slot is free, and otherwise a buffer of
the requested size tagged as ACL data over the first free slot, now marked in
use; releasing that packet restores the pool to its original state and runs
the triggered re-drain of the channel queues to completion. -/
theorem getAclH4Packet_contract (s : H4Storage) (size : Nat) (st : DrainState)
    (hwf : MgrWF st.mgr) :
    (size > s.buffSize → GetAclH4Packet s size = .invalidArgument) ∧
    (size ≤ s.buffSize → firstFree s.used = none →
      GetAclH4Packet s size = .unavailable) ∧
    (∀ i, size ≤ s.buffSize → firstFree s.used = some i →
      GetAclH4Packet s size =
        .acquired { s with used := s.used.set i true } ⟨i, size, .aclData⟩ ∧
      (releaseAclH4Packet { s with used := s.used.set i true }
          ⟨i, size, .aclData⟩ st (drainMeasure st + 1)).1 = s ∧
      ((releaseAclH4Packet { s with used := s.used.set i true }
          ⟨i, size, .aclData⟩ st (drainMeasure st + 1)).2).isSome = true) := by
  refine ⟨?_, ?_, ?_⟩
  · intro h
    unfold GetAclH4Packet
    rw [if_pos h]
  · intro h1 h2
    unfold GetAclH4Packet ReserveH4Buff
    rw [if_neg (by omega), h2]
  · intro i h1 h2
    obtain ⟨hlt, hval⟩ := firstFree_spec s.used i h2
    refine ⟨?_, ?_, ?_⟩
    · unfold GetAclH4Packet ReserveH4Buff
      rw [if_neg (by omega), h2]
    · show ReleaseH4Buff { s with used := s.used.set i true } i = s
      unfold ReleaseH4Buff
      have hss : (s.used.set i true).set i false = s.used := by
        rw [List.set_set]
        exact set_of_getElem? s.used i false hval
      cases s
      simp only at hss
      simp [hss]
    · show (drainFuel (drainMeasure st + 1) st).isSome = true
      obtain ⟨st1, hrun, _⟩ :=
        drainFuel_terminates (drainMeasure st) st hwf (Nat.le_refl _)
      rw [hrun]
      rfl

/-- C9 witness: a two-slot pool with the first slot in use; acquisition of a
3-byte packet takes slot 1, and its release restores the pool. -/
theorem getAclH4Packet_contract_witness :
    MgrWF (⟨⟨[], none, none⟩, 0, 0, []⟩ : DrainState).mgr ∧
      GetAclH4Packet ⟨5, [true, false]⟩ 3 =
        .acquired ⟨5, [true, true]⟩ ⟨1, 3, .aclData⟩ ∧
      (releaseAclH4Packet ⟨5, [true, true]⟩ ⟨1, 3, .aclData⟩
          (⟨⟨[], none, none⟩, 0, 0, []⟩ : DrainState)
          (drainMeasure (⟨⟨[], none, none⟩, 0, 0, []⟩ : DrainState) + 1)).1 =
        ⟨5, [true, false]⟩ := by
  have h := (getAclH4Packet_contract ⟨5, [true, false]⟩ 3
    (⟨⟨[], none, none⟩, 0, 0, []⟩ : DrainState) (by decide)).2.2 1
    (by decide) (by decide)
  exact ⟨by decide, h.1, h.2.1⟩

end PwBtProxy
